import Mathlib

/-!
A verification development for the small FORTH interpreter in
`src/libforth.c` (repository kmatze/libforth).

The C sources are shallowly embedded as executable Lean definitions:

* cells are unsigned machine integers; the print formats (`%hu`, `%hx`)
  and `CORE_SIZE = (UINT16_MAX+1)/2` of `libforth.c` fix the cell type
  `forth_cell_t` (declared in `libforth.h`, which is not part of `src/`)
  to a 16-bit unsigned integer, so cell arithmetic is `Nat` arithmetic
  with an explicit `% 2^16` at every store;
* the image `m` is a total function `Nat → Nat`; stores truncate to a
  cell, and well-formed states keep every cell below `2^16`;
* the input source is the in-memory-string variant of the C code
  (fields `sin`/`sidx`/`slen`, with `slen = strlen + 1`); the word
  buffer `o->s` (which in C aliases image cells 32..47) is carried as a
  separate field `sbuf`;
* output and block-file I/O are oracles: output is an event log, block
  files are supplied by functions in a configuration record;
* C loops that are not structurally bounded (`find`, the interpreter
  loops) take fuel, and fuel exhaustion is a distinguished outcome
  standing for the C code not terminating.
-/

namespace LibForth

/-- Cell modulus: `forth_cell_t` is a 16-bit unsigned integer. -/
abbrev CELL : Nat := 65536

/-- `STRING_OFFSET` of `libforth.c`: the cell index of the 16-cell
(32-byte) word buffer `o->s = (uint8_t*)(m + STRING_OFFSET)` into which
`forth_get_word` writes the parsed token. -/
abbrev STRING_OFFSET : Nat := 32

/-- `DICTIONARY_START = STRING_OFFSET + MAX_WORD_LENGTH = 64`. -/
abbrev DICTIONARY_START : Nat := 64

/-- `BLOCK_SIZE` of `libforth.c`: size of a forth block in bytes. -/
abbrev BLOCK_SIZE : Nat := 1024

/-- The NUL character, terminator of C strings. -/
def nulChar : Char := Char.ofNat 0

/-- C `isspace`: space, tab, newline, vertical tab, form feed, carriage
return (the whitespace set used by `sscanf`/`fscanf` with `%s`). -/
def isWs (c : Char) : Bool :=
  c == ' ' || c == '\t' || c == '\n' || c == Char.ofNat 11 ||
  c == Char.ofNat 12 || c == '\r'

/-- Model of one `"%31s%n"` conversion on a character sequence: skip
leading whitespace; if the input is exhausted return `none` (input
failure, `EOF`); otherwise read up to 31 non-whitespace characters and
return the token together with the total number of characters consumed
(whitespace included), which is what `%n` reports. -/
def scan31 (s : List Char) : Option (List Char × Nat) :=
  let w := (s.takeWhile isWs).length
  let r := s.drop w
  if r.isEmpty then none
  else
    let tok := (r.takeWhile (fun c => !isWs c)).take 31
    some (tok, w + tok.length)

/-- The token-extraction core of `forth_get_word` on string input:
scan from position `sidx` of `sin`; on success return the token and the
new value of `sidx`. -/
def getWordF (sin : List Char) (sidx : Nat) : Option (List Char × Nat) :=
  (scan31 (sin.drop sidx)).map (fun p => (p.1, sidx + p.2))

/-- `forth_get_word`, string-input variant (`o->stringin` set): runs
`sscanf(&sin[sidx], "%31s%n", p, &n)`; on input failure returns `EOF`
(−1) and leaves `sidx` and the buffer alone, otherwise returns `n` (the
characters consumed, leading whitespace included), advances `sidx` by
`n` and fills the buffer with the token. -/
def forth_get_word_str (sin : List Char) (sidx : Nat) :
    Int × Nat × Option (List Char) :=
  match scan31 (sin.drop sidx) with
  | none => (-1, sidx, none)
  | some (tok, n) => ((n : Int), sidx + n, some tok)

/-- `forth_get_word`, file-input variant: returns the result of
`fscanf(in, "%31s%n", p, &n)` itself, which is the number of successful
conversions: 1 on success and `EOF` (−1) on input failure; the `%n`
count `n` is discarded.  The remaining stream and the token written to
the buffer are also returned. -/
def forth_get_word_file (stream : List Char) :
    Int × List Char × Option (List Char) :=
  match scan31 stream with
  | none => (-1, stream.drop (stream.takeWhile isWs).length, none)
  | some (tok, n) => (1, stream.drop n, some tok)

/-- `forth_get_char` on string input: `sidx >= slen` (with
`slen = sin.length + 1`) yields `EOF`; index `sin.length` reads the
NUL terminator of the C string; otherwise the byte at `sidx` is
returned and `sidx` is advanced. -/
def getCharF (sin : List Char) (sidx : Nat) : Option (Nat × Nat) :=
  if sidx ≥ sin.length + 1 then none
  else if h : sidx < sin.length then some ((sin.get ⟨sidx, h⟩).toNat % 256, sidx + 1)
  else some (0, sidx + 1)

/-- Recursion core of `comment`: consume characters while they are
greater than 0 and not a newline; return the last character read (or
−1 on `EOF`) and the new input position. -/
def commentAux (sin : List Char) : Nat → Nat → Int × Nat
  | 0, sidx => (0, sidx)
  | fuel + 1, sidx =>
    match getCharF sin sidx with
    | none => (-1, sidx)
    | some (c, si2) =>
      if 0 < c ∧ c ≠ 10 then commentAux sin fuel si2 else ((c : Int), si2)

/-- `comment`: process a comment line, consuming characters up to a
newline, a NUL byte or `EOF`.  The fuel `sin.length + 2 - sidx` always
covers the remaining characters plus the final `EOF` read, so the
fuel-exhausted case of `commentAux` is never the returned value. -/
def commentF (sin : List Char) (sidx : Nat) : Int × Nat :=
  commentAux sin (sin.length + 2 - sidx) sidx

/-- The digit set of the C string literal `"01234567"`. -/
def octDigits : List Char := ['0', '1', '2', '3', '4', '5', '6', '7']

/-- The digit set of the C string literal `"0123456789"`. -/
def decDigits : List Char :=
  ['0', '1', '2', '3', '4', '5', '6', '7', '8', '9']

/-- The digit set of the C string literal `"0123456789abcdefABCDEF"`. -/
def hexDigits : List Char :=
  decDigits ++ ['a', 'b', 'c', 'd', 'e', 'f', 'A', 'B', 'C', 'D', 'E', 'F']

/-- `s[i]` on a C string modelled as a NUL-free `List Char`: positions
at or past the end read the NUL terminator. -/
def charAt (s : List Char) (i : Nat) : Char := s.getD i nulChar

/-- `strspn(s, set)`: length of the longest prefix of `s` made of
characters from `set`. -/
def spanLen (set : List Char) (s : List Char) : Nat :=
  (s.takeWhile (fun c => set.contains c)).length

/-- `is_number` of `libforth.c`: strip one leading `-`; a string
starting `0x` must then be hexadecimal digits only and at least one;
a string starting `0` must be octal digits only; anything else must be
at least one decimal digit and decimal digits only. -/
def is_number (s : List Char) : Bool :=
  let t := if charAt s 0 = '-' then s.drop 1 else s
  if charAt t 0 = '0' then
    if charAt t 1 = 'x' then
      decide (charAt t (spanLen hexDigits (t.drop 2) + 2) = nulChar) &&
        decide (charAt t 2 ≠ nulChar)
    else decide (charAt t (spanLen octDigits t) = nulChar)
  else
    decide (charAt t (spanLen decDigits t) = nulChar) &&
      decide (charAt t 0 ≠ nulChar)

/-- The sign-stripped part of the specification's number grammar (§4.3
of the spec, the alternatives guarded in order, per its "otherwise"):
`0x` followed by at least one hexadecimal digit, or `0` followed by
only octal digits, or at least one decimal digit with only decimal
digits. -/
def grammarBody (t : List Char) : Bool :=
  match t with
  | '0' :: 'x' :: r => !r.isEmpty && r.all (fun c => hexDigits.contains c)
  | '0' :: r => r.all (fun c => octDigits.contains c)
  | _ => !t.isEmpty && t.all (fun c => decDigits.contains c)

/-- The number grammar exactly as the specification words it: an
optional leading minus, then one of the three digit-run forms of
`grammarBody`. -/
def numberGrammar (s : List Char) : Bool :=
  grammarBody (match s with | '-' :: r => r | _ => s)

/-- Numeric value of a digit character, as `strtol` decodes it
(`0`–`9`, `a`–`f`, `A`–`F`); other characters decode to 0 but are
never consumed. -/
def charVal (c : Char) : Nat :=
  if '0' ≤ c ∧ c ≤ '9' then c.toNat - 48
  else if 'a' ≤ c ∧ c ≤ 'f' then c.toNat - 87
  else if 'A' ≤ c ∧ c ≤ 'F' then c.toNat - 55
  else 0

/-- Is `c` a decimal digit character. -/
def isDecCh (c : Char) : Bool := decDigits.contains c

/-- Is `c` an octal digit character. -/
def isOctCh (c : Char) : Bool := octDigits.contains c

/-- Is `c` a hexadecimal digit character (either case). -/
def isHexCh (c : Char) : Bool := hexDigits.contains c

/-- Accumulate the longest prefix of digits of the given class into a
number: `strtol`'s digit loop. -/
def parseDigits (base : Nat) (isD : Char → Bool) (s : List Char) : Nat :=
  (s.takeWhile isD).foldl (fun a c => a * base + charVal c) 0

/-- `LONG_MAX` on the 64-bit host. -/
def LONG_MAX : Int := 9223372036854775807

/-- `LONG_MIN` on the 64-bit host. -/
def LONG_MIN : Int := -9223372036854775808

/-- `strtol(s, 0, 0)`: skip whitespace, an optional sign, then detect
the base from a `0x`/`0X` or `0` prefix (a `0x` not followed by a
hexadecimal digit parses just the `0`), parse the digit run, and clamp
the signed result into the `long` range. -/
def strtol0 (s : List Char) : Int :=
  let s1 := s.dropWhile isWs
  let neg := charAt s1 0 = '-'
  let s2 := if charAt s1 0 = '-' ∨ charAt s1 0 = '+' then s1.drop 1 else s1
  let mag : Nat :=
    if charAt s2 0 = '0' ∧ (charAt s2 1 = 'x' ∨ charAt s2 1 = 'X') then
      if isHexCh (charAt s2 2) then parseDigits 16 isHexCh (s2.drop 2) else 0
    else if charAt s2 0 = '0' then parseDigits 8 isOctCh (s2.drop 1)
    else parseDigits 10 isDecCh s2
  let v : Int := if neg then -(mag : Int) else (mag : Int)
  if v > LONG_MAX then LONG_MAX else if v < LONG_MIN then LONG_MIN else v

/-- Conversion of a C `int`/`long` value to `forth_cell_t`: reduce
modulo `2^16` (so −1 becomes 65535). -/
def castCell (i : Int) : Nat := (i % (65536 : Int)).toNat

/-- The character for decimal digit `d`. -/
def digitCharD (d : Nat) : Char := Char.ofNat (48 + d)

/-- The character for hexadecimal digit `d` (lower case letters). -/
def digitCharH (d : Nat) : Char :=
  if d < 10 then Char.ofNat (48 + d) else Char.ofNat (87 + d)

/-- The decimal literal of `n`, most significant digit first. -/
def decLit (n : Nat) : List Char :=
  if n = 0 then ['0'] else (Nat.digits 10 n).reverse.map digitCharD

/-- The hexadecimal literal `0x…` of `n`. -/
def hexLit (n : Nat) : List Char :=
  '0' :: 'x' ::
    (if n = 0 then ['0'] else (Nat.digits 16 n).reverse.map digitCharH)

/-- Read the byte at byte offset `boff` of the cell image (cells are
16-bit, little endian on the x86 host). -/
def readByte (m : Nat → Nat) (boff : Nat) : Nat :=
  if boff % 2 = 0 then m (boff / 2) % 256 else m (boff / 2) / 256 % 256

/-- Overwrite the byte at byte offset `boff` of the cell image. -/
def setByte (m : Nat → Nat) (boff b : Nat) : Nat → Nat :=
  let i := boff / 2
  Function.update m i
    (if boff % 2 = 0 then (m i / 256 % 256) * 256 + b % 256
     else m i % 256 + 256 * (b % 256))

/-- Write a run of bytes into the cell image starting at byte offset
`boff` (models `strcpy`/`fread` into the image). -/
def writeBytesCells (m : Nat → Nat) (boff : Nat) : List Nat → (Nat → Nat)
  | [] => m
  | b :: bs => writeBytesCells (setByte m boff b) (boff + 1) bs

/-- A C string's bytes including its NUL terminator. -/
def strBytes (s : List Char) : List Nat := s.map (fun c => c.toNat % 256) ++ [0]

/-- Read the NUL-terminated byte run starting at byte offset `boff` of
the image as characters (the NUL excluded).  `fuel` bounds the scan;
the interpreter passes enough fuel to cover the whole image, beyond
which the C code would be reading out of bounds. -/
def readCString (m : Nat → Nat) (boff : Nat) : Nat → List Char
  | 0 => []
  | fuel + 1 =>
    let b := readByte m boff
    if b = 0 then [] else Char.ofNat b :: readCString m (boff + 1) fuel

/-- `strcmp(a, b) != 0` for two C strings given as NUL-free character
lists. -/
def cstrNe (a b : List Char) : Bool := a != b

/-- An output event: everything `forth_run` writes to `o->out`. -/
inductive OutEvent : Type where
  | emit : Nat → OutEvent
  | pnum : Bool → Nat → OutEvent
  | print : Nat → List Char → OutEvent
  | pstk : Nat → List Nat → OutEvent
  deriving DecidableEq

/-- The mutable state of one `forth_run` invocation: the image `m`, the
local variable-stack pointer `S` (a cell index), the cached top of
stack `f`, the local instruction pointer `I`, the string input
(`sin`/`sidx`), the word buffer `sbuf` (aliasing image cells 32..47 in
C) and the output log. -/
structure RState : Type where
  m : Nat → Nat
  S : Nat
  f : Nat
  I : Nat
  sin : List Char
  sidx : Nat
  sbuf : List Char
  out : List OutEvent

/-- The constant configuration of a core: `cs` is `o->core_size` in
cells, `ss` is `o->stack_size`, and the three oracle fields describe
the block-file system: whether `XXXX.blk` opens for writing with a full
1024-byte write (`wOk`), whether it opens for reading (`rOk`), and its
contents (`blk`). -/
structure Cfg : Type where
  cs : Nat
  ss : Nat
  wOk : Nat → Bool
  rOk : Nat → Bool
  blk : Nat → List Nat

/-- Outcome of dispatching one primitive: `next` falls back to the
outer instruction-fetch loop (C `break`), `jump` re-enters the
dispatcher at a new `pc` (C `goto INNER`), `halt` ends the run normally
(C `goto end`), `fail` is the `longjmp` abort, and `div` stands for the
C code not terminating (fuel exhausted). -/
inductive StepR : Type where
  | next : RState → StepR
  | jump : Nat → RState → StepR
  | halt : RState → StepR
  | fail : RState → StepR
  | div : StepR

/-- State of a `StepR` that completed the primitive (any outcome other
than abort or divergence). -/
def stepSt? : StepR → Option RState
  | .next st => some st
  | .jump _ st => some st
  | .halt st => some st
  | .fail _ => none
  | .div => none

/-- The `pc` of a `goto INNER` outcome. -/
def stepJumpPC : StepR → Option Nat
  | .jump pc _ => some pc
  | _ => none

/-- `check_bounds`: an image index is valid iff it is below
`core_size`; an invalid index makes the interpreter `longjmp` to the
top of `forth_run`. -/
def check_bounds (cs i : Nat) : Bool := i < cs

/-- Store value `v` (truncated to a cell) at cell index `i`. -/
def setMem (st : RState) (i v : Nat) : RState :=
  { st with m := Function.update st.m i (v % CELL) }

/-- `*++S = f`: push the cached top onto the variable stack. -/
def pushf (st : RState) : RState :=
  { st with m := Function.update st.m (st.S + 1) (st.f % CELL), S := st.S + 1 }

/-- `f = *S--`: pop the variable stack into the cached top. -/
def popf (st : RState) : RState :=
  { st with f := st.m st.S, S := st.S - 1 }

/-- `find` of `libforth.c`: walk the dictionary list from `m[PWD]`,
skipping entries that are hidden or whose name (the NUL-terminated
bytes `len` cells below the link field, `len` decoded from the
flags/code cell) differs from the word buffer; return the link index,
or 0 once the walk falls to `DICTIONARY_START` or below.  `fuel`
bounds the walk (the C loop does not terminate on a cyclic list). -/
def findAux (st : RState) : Nat → Nat → Option Nat
  | 0, _ => none
  | fuel + 1, w =>
    let len := st.m (w + 1) / 256 % 256
    if DICTIONARY_START < w ∧
        (cstrNe st.sbuf (readCString st.m (2 * (w - len)) 64) = true ∨
          st.m (w + 1) &&& 128 ≠ 0) then
      findAux st fuel (st.m w)
    else some (if DICTIONARY_START < w then w else 0)

/-- `find`, starting from the `PWD` register (image cell 10). -/
def findF (fuel : Nat) (st : RState) : Option Nat := findAux st fuel (st.m 10)

/-- The intermediate state of the `READ` primitive after `m[ck(RSTK)]--`
and a successful `forth_get_word` that produced token `tok` and moved
the input cursor to `si2`: the token's bytes and NUL terminator are
written into the word buffer, the image cells starting at
`STRING_OFFSET` (`o->s = (uint8_t*)(m + STRING_OFFSET)`). -/
def readSt2 (st : RState) (tok : List Char) (si2 : Nat) : RState :=
  { st with
    m := writeBytesCells
      (Function.update st.m 1 ((st.m 1 + CELL - 1) % CELL))
      (2 * STRING_OFFSET) (strBytes tok),
    sidx := si2, sbuf := tok }

/-- `blockio` of `libforth.c`: refuse offsets above
`core_size − BLOCK_SIZE` (`core_size` is in cells; the subtraction is
C `size_t` arithmetic, faithful for `core_size ≥ BLOCK_SIZE`); then
open `XXXX.blk` and transfer exactly 1024 bytes from (write) or to
(read) the image at byte offset `poffset`; any open failure or short
transfer yields −1, success 0. -/
def blockio (cfg : Cfg) (m : Nat → Nat) (poffset id : Nat) (isWrite : Bool) :
    Int × (Nat → Nat) :=
  if poffset > cfg.cs - BLOCK_SIZE then (-1, m)
  else if isWrite then (if cfg.wOk id then (0, m) else (-1, m))
  else if cfg.rOk id then
    let bs := (cfg.blk id).take BLOCK_SIZE
    (if bs.length = BLOCK_SIZE then 0 else -1, writeBytesCells m poffset bs)
  else (-1, m)

/-- The header-building part of `compile` once the name is in hand:
copy the name bytes to `m + m[DIC]` (`strcpy`), advance `DIC` by the
cell-aligned name length `l = ((strlen + 1) + 1) / 2` cells, append the
previous `PWD` as the link field, point `PWD` at it, and append the
flags/code cell `(l << 8) | code`. -/
def compileF (st : RState) (code : Nat) (tok : List Char) : RState :=
  let d := st.m 0
  let st1 := { st with m := writeBytesCells st.m (2 * d) (strBytes tok) }
  let l := (tok.length + 2) / 2
  let st2 := setMem st1 0 (st1.m 0 + l)
  let i1 := st2.m 0
  let st3 := setMem st2 0 (i1 + 1)
  let st4 := setMem st3 i1 (st3.m 10)
  let st5 := setMem st4 10 (st4.m 0 + CELL - 1)
  let i2 := st5.m 0
  let st6 := setMem st5 0 (i2 + 1)
  setMem st6 i2 ((l <<< 8) ||| code)

/-- `PUSH`: `*++S = f; f = m[ck(I++)]`. -/
def primPush (cfg : Cfg) (_fuel _pc1 : Nat) (st : RState) : StepR :=
  let st1 := pushf st
  let i := st1.I
  let st2 := { st1 with I := (i + 1) % CELL }
  if check_bounds cfg.cs i then .next { st2 with f := st2.m i } else .fail st2

/-- `COMPILE`: `m[ck(m[DIC]++)] = pc`. -/
def primCompile (cfg : Cfg) (_fuel pc1 : Nat) (st : RState) : StepR :=
  let d := st.m 0
  let st1 := setMem st 0 (d + 1)
  if check_bounds cfg.cs d then .next (setMem st1 d pc1) else .fail st1

/-- `RUN`: `m[ck(++m[RSTK])] = I; I = pc`. -/
def primRun (cfg : Cfg) (_fuel pc1 : Nat) (st : RState) : StepR :=
  let r := (st.m 1 + 1) % CELL
  let st1 := setMem st 1 r
  if check_bounds cfg.cs r then .next { setMem st1 r st.I with I := pc1 }
  else .fail st1

/-- `DEFINE`: `m[STATE] = 1`; `compile(o, COMPILE, NULL)` (parse the
name from input into the word buffer at `STRING_OFFSET`, `EOF` ends the
run); then `m[ck(m[DIC]++)] = RUN`. -/
def primDefine (cfg : Cfg) (_fuel _pc1 : Nat) (st : RState) : StepR :=
  let st1 := setMem st 8 1
  match getWordF st1.sin st1.sidx with
  | none => .halt st1
  | some (tok, si2) =>
    let st2 := { st1 with
      m := writeBytesCells st1.m (2 * STRING_OFFSET) (strBytes tok),
      sidx := si2, sbuf := tok }
    let st3 := compileF st2 1 tok
    let i3 := st3.m 0
    let st4 := setMem st3 0 (i3 + 1)
    if check_bounds cfg.cs i3 then .next (setMem st4 i3 2) else .fail st4

/-- `IMMEDIATE`: `*m -= 2; m[m[DIC]] = (m[m[DIC]] & ~INSTRUCTION_MASK)
| RUN; m[DIC]++` — none of these accesses is bounds-checked. -/
def primImmediate (_cfg : Cfg) (_fuel _pc1 : Nat) (st : RState) : StepR :=
  let st1 := setMem st 0 (st.m 0 + CELL - 2)
  let i := st1.m 0
  let st2 := setMem st1 i ((st1.m i &&& 65408) ||| 2)
  .next (setMem st2 0 (st2.m 0 + 1))

/-- `COMMENT`: `if(comment(o) < 0) goto end`. -/
def primComment (_cfg : Cfg) (_fuel _pc1 : Nat) (st : RState) : StepR :=
  let p := commentF st.sin st.sidx
  if p.1 < 0 then .halt { st with sidx := p.2 } else .next { st with sidx := p.2 }

/-- The word-was-not-found tail of the `READ` case (libforth.c lines
343–353): if the token is not a number, print a diagnostic and
continue; otherwise in compile mode append a `PUSH`-literal pair to the
dictionary (first store unchecked, second checked), and in interpret
mode push the old top and cache the parsed value. -/
def readNumber (cfg : Cfg) (st2 : RState) : StepR :=
  if is_number st2.sbuf = false then .next st2
  else if st2.m 8 ≠ 0 then
    let i1 := st2.m 0
    let st3 := setMem st2 0 (i1 + 1)
    let st4 := setMem st3 i1 2
    let i2 := st4.m 0
    let st5 := setMem st4 0 (i2 + 1)
    if check_bounds cfg.cs i2 then
      .next (setMem st5 i2 (castCell (strtol0 st2.sbuf)))
    else .fail st5
  else
    .next { st2 with
            m := Function.update st2.m (st2.S + 1) (st2.f % CELL),
            S := st2.S + 1, f := castCell (strtol0 st2.sbuf) }

/-- The dispatch-on-lookup-result part of the `READ` case (libforth.c
lines 338–353): a link index above the sentinel 1 re-enters the
dispatcher at `pc = w + 1`, advanced once more when `STATE` is 0 and
the (bounds-checked) cell at that `pc` holds primitive `COMPILE`;
otherwise fall through to the number handling. -/
def readWord (cfg : Cfg) (st2 : RState) (w : Nat) : StepR :=
  if 1 < w then
    let pcw := (w + 1) % CELL
    if st2.m 8 = 0 then
      if check_bounds cfg.cs pcw then
        if st2.m pcw % 128 = 1 then .jump ((pcw + 1) % CELL) st2
        else .jump pcw st2
      else .fail st2
    else .jump pcw st2
  else readNumber cfg st2

/-- Look the parsed word up (`w = find(o)`), diverging if the C `find`
loop would not terminate. -/
def readGo (cfg : Cfg) (fuel : Nat) (st2 : RState) : StepR :=
  match findF fuel st2 with
  | none => .div
  | some w => readWord cfg st2 w

/-- `READ`, the outer interpreter (§4.6): decrement `m[ck(RSTK)]`,
parse a word (`EOF` ends the run), then `readGo` on the resulting
state. -/
def primRead (cfg : Cfg) (fuel _pc1 : Nat) (st : RState) : StepR :=
  if check_bounds cfg.cs 1 then
    match getWordF st.sin st.sidx with
    | none => .halt (setMem st 1 (st.m 1 + CELL - 1))
    | some (tok, si2) => readGo cfg fuel (readSt2 st tok si2)
  else .fail st

/-- `LOAD`: `f = m[ck(f)]`. -/
def primLoad (cfg : Cfg) (_fuel _pc1 : Nat) (st : RState) : StepR :=
  if check_bounds cfg.cs st.f then .next { st with f := st.m st.f } else .fail st

/-- `STORE`: `m[ck(f)] = *S--; f = *S--`. -/
def primStore (cfg : Cfg) (_fuel _pc1 : Nat) (st : RState) : StepR :=
  if check_bounds cfg.cs st.f then
    let st1 := setMem st st.f (st.m st.S)
    .next { st1 with f := st1.m (st.S - 1), S := st.S - 2 }
  else .fail st

/-- `SUB`: `f = *S-- - f` (16-bit wraparound). -/
def primSub (_cfg : Cfg) (_fuel _pc1 : Nat) (st : RState) : StepR :=
  .next { st with f := (st.m st.S + CELL - st.f % CELL) % CELL, S := st.S - 1 }

/-- `ADD`: `f = *S-- + f`. -/
def primAdd (_cfg : Cfg) (_fuel _pc1 : Nat) (st : RState) : StepR :=
  .next { st with f := (st.m st.S + st.f) % CELL, S := st.S - 1 }

/-- `AND`: `f = *S-- & f`. -/
def primAnd (_cfg : Cfg) (_fuel _pc1 : Nat) (st : RState) : StepR :=
  .next { st with f := (st.m st.S &&& st.f) % CELL, S := st.S - 1 }

/-- `OR`: `f = *S-- | f`. -/
def primOr (_cfg : Cfg) (_fuel _pc1 : Nat) (st : RState) : StepR :=
  .next { st with f := (st.m st.S ||| st.f) % CELL, S := st.S - 1 }

/-- `XOR`: `f = *S-- ^ f`. -/
def primXor (_cfg : Cfg) (_fuel _pc1 : Nat) (st : RState) : StepR :=
  .next { st with f := (st.m st.S ^^^ st.f) % CELL, S := st.S - 1 }

/-- `INV`: `f = ~f` on a 16-bit cell. -/
def primInv (_cfg : Cfg) (_fuel _pc1 : Nat) (st : RState) : StepR :=
  .next { st with f := CELL - 1 - st.f % CELL }

/-- `SHL`: `f = *S-- << f`. -/
def primShl (_cfg : Cfg) (_fuel _pc1 : Nat) (st : RState) : StepR :=
  .next { st with f := (st.m st.S <<< st.f) % CELL, S := st.S - 1 }

/-- `SHR`: `f = *S-- >> f`. -/
def primShr (_cfg : Cfg) (_fuel _pc1 : Nat) (st : RState) : StepR :=
  .next { st with f := (st.m st.S >>> st.f) % CELL, S := st.S - 1 }

/-- `MUL`: `f = *S-- * f`. -/
def primMul (_cfg : Cfg) (_fuel _pc1 : Nat) (st : RState) : StepR :=
  .next { st with f := (st.m st.S * st.f) % CELL, S := st.S - 1 }

/-- `LESS`: `f = *S-- < f` (unsigned compare, 0/1). -/
def primLess (_cfg : Cfg) (_fuel _pc1 : Nat) (st : RState) : StepR :=
  .next { st with f := if st.m st.S < st.f then 1 else 0, S := st.S - 1 }

/-- `EXIT`: `I = m[ck(m[RSTK]--)]`. -/
def primExit (cfg : Cfg) (_fuel _pc1 : Nat) (st : RState) : StepR :=
  let r := st.m 1
  let st1 := setMem st 1 (r + CELL - 1)
  if check_bounds cfg.cs r then .next { st1 with I := st1.m r } else .fail st1

/-- `EMIT`: `fputc(f, o->out); f = *S--`. -/
def primEmit (_cfg : Cfg) (_fuel _pc1 : Nat) (st : RState) : StepR :=
  .next { st with
          out := st.out ++ [.emit (st.f % 256)],
          f := st.m st.S, S := st.S - 1 }

/-- `KEY`: `*++S = f; f = forth_get_char(o)` (`EOF` is −1, 65535 as a
cell). -/
def primKey (_cfg : Cfg) (_fuel _pc1 : Nat) (st : RState) : StepR :=
  let st1 := pushf st
  match getCharF st1.sin st1.sidx with
  | none => .next { st1 with f := 65535 }
  | some (c, si2) => .next { st1 with f := c, sidx := si2 }

/-- `FROMR`: `*++S = f; f = m[ck(m[RSTK]--)]`. -/
def primFromr (cfg : Cfg) (_fuel _pc1 : Nat) (st : RState) : StepR :=
  let st1 := pushf st
  let r := st1.m 1
  let st2 := setMem st1 1 (r + CELL - 1)
  if check_bounds cfg.cs r then .next { st2 with f := st2.m r } else .fail st2

/-- `TOR`: `m[ck(++m[RSTK])] = f; f = *S--`. -/
def primTor (cfg : Cfg) (_fuel _pc1 : Nat) (st : RState) : StepR :=
  let r := (st.m 1 + 1) % CELL
  let st1 := setMem st 1 r
  if check_bounds cfg.cs r then
    let st2 := setMem st1 r st.f
    .next { st2 with f := st2.m st2.S, S := st2.S - 1 }
  else .fail st1

/-- `JMP`: `I += m[ck(I)]`. -/
def primJmp (cfg : Cfg) (_fuel _pc1 : Nat) (st : RState) : StepR :=
  if check_bounds cfg.cs st.I then
    .next { st with I := (st.I + st.m st.I) % CELL }
  else .fail st

/-- `JMPZ`: `I += f == 0 ? m[I] : 1; f = *S--` — the jump-offset read
`m[I]` is not bounds-checked. -/
def primJmpz (_cfg : Cfg) (_fuel _pc1 : Nat) (st : RState) : StepR :=
  let st1 :=
    { st with I := (st.I + (if st.f = 0 then st.m st.I else 1)) % CELL }
  .next { st1 with f := st1.m st1.S, S := st1.S - 1 }

/-- `PNUM`: print `f` per the `HEX` register; `f = *S--`. -/
def primPnum (_cfg : Cfg) (_fuel _pc1 : Nat) (st : RState) : StepR :=
  .next { st with
          out := st.out ++ [.pnum (st.m 9 != 0) st.f],
          f := st.m st.S, S := st.S - 1 }

/-- `QUOTE`: identical to `PUSH` in the source. -/
def primQuote (cfg : Cfg) (fuel pc1 : Nat) (st : RState) : StepR :=
  primPush cfg fuel pc1 st

/-- `COMMA`: `m[ck(m[0]++)] = f; f = *S--`. -/
def primComma (cfg : Cfg) (_fuel _pc1 : Nat) (st : RState) : StepR :=
  let d := st.m 0
  let st1 := setMem st 0 (d + 1)
  if check_bounds cfg.cs d then
    let st2 := setMem st1 d st.f
    .next { st2 with f := st2.m st2.S, S := st2.S - 1 }
  else .fail st1

/-- `EQUAL`: `f = *S-- == f`. -/
def primEqual (_cfg : Cfg) (_fuel _pc1 : Nat) (st : RState) : StepR :=
  .next { st with f := if st.m st.S = st.f then 1 else 0, S := st.S - 1 }

/-- `SWAP`: `w = f; f = *S--; *++S = w`. -/
def primSwap (_cfg : Cfg) (_fuel _pc1 : Nat) (st : RState) : StepR :=
  .next { st with
          f := st.m st.S,
          m := Function.update st.m st.S (st.f % CELL) }

/-- `DUP`: `*++S = f`. -/
def primDup (_cfg : Cfg) (_fuel _pc1 : Nat) (st : RState) : StepR :=
  .next (pushf st)

/-- `DROP`: `f = *S--`. -/
def primDrop (_cfg : Cfg) (_fuel _pc1 : Nat) (st : RState) : StepR :=
  .next (popf st)

/-- `OVER`: `w = *S; *++S = f; f = w`. -/
def primOver (_cfg : Cfg) (_fuel _pc1 : Nat) (st : RState) : StepR :=
  .next { st with
          m := Function.update st.m (st.S + 1) (st.f % CELL),
          S := st.S + 1, f := st.m st.S }

/-- `TAIL`: `m[RSTK]--`. -/
def primTail (_cfg : Cfg) (_fuel _pc1 : Nat) (st : RState) : StepR :=
  .next (setMem st 1 (st.m 1 + CELL - 1))

/-- `BSAVE`: `f = blockio(o, m, *S--, f, 'w')`. -/
def primBsave (cfg : Cfg) (_fuel _pc1 : Nat) (st : RState) : StepR :=
  let r := blockio cfg st.m (st.m st.S) st.f true
  .next { st with m := r.2, S := st.S - 1, f := castCell r.1 }

/-- `BLOAD`: `f = blockio(o, m, *S--, f, 'r')`. -/
def primBload (cfg : Cfg) (_fuel _pc1 : Nat) (st : RState) : StepR :=
  let r := blockio cfg st.m (st.m st.S) st.f false
  .next { st with m := r.2, S := st.S - 1, f := castCell r.1 }

/-- `FIND`: `*++S = f`; parse a name into the word buffer at
`STRING_OFFSET` (`EOF` ends the run); `f = find(o) + 2`, squashed to 0
below `DICTIONARY_START`. -/
def primFind (_cfg : Cfg) (fuel _pc1 : Nat) (st : RState) : StepR :=
  let st1 := pushf st
  match getWordF st1.sin st1.sidx with
  | none => .halt st1
  | some (tok, si2) =>
    let st2 := { st1 with
      m := writeBytesCells st1.m (2 * STRING_OFFSET) (strBytes tok),
      sidx := si2, sbuf := tok }
    match findF fuel st2 with
    | none => .div
    | some w =>
      let fv := (w + 2) % CELL
      .next { st2 with f := if fv < DICTIONARY_START then 0 else fv }

/-- `PRINT`: `fputs(((char*)m)+f, o->out); f = *S--` — reads the
NUL-terminated bytes at byte offset `f`, unchecked. -/
def primPrintOp (cfg : Cfg) (_fuel _pc1 : Nat) (st : RState) : StepR :=
  .next { st with
          out := st.out ++ [.print st.f (readCString st.m st.f (2 * cfg.cs + 2))],
          f := st.m st.S, S := st.S - 1 }

/-- The cells printed by `print_stack`: walk `S` down to
`core_size − 2·stack_size + 2`. -/
def stackList (m : Nat → Nat) (low : Nat) : Nat → List Nat
  | 0 => []
  | s + 1 => if low + 1 < s + 1 then m (s + 1) :: stackList m low s else []

/-- `PSTK`: `print_stack(o, f, S)` (output only; `S` and `f` are passed
by value). -/
def primPstk (cfg : Cfg) (_fuel _pc1 : Nat) (st : RState) : StepR :=
  .next { st with
          out := st.out ++ [.pstk st.f (stackList st.m (cfg.cs - 2 * cfg.ss) st.S)] }

/-- The `default` switch case: an illegal opcode aborts via
`longjmp`. -/
def primBad (_cfg : Cfg) (_fuel _pc1 : Nat) (st : RState) : StepR := .fail st

/-- The dispatch table in opcode order (the `enum instructions` of
`libforth.c`): PUSH, COMPILE, RUN, DEFINE, IMMEDIATE, COMMENT, READ,
LOAD, STORE, SUB, ADD, AND, OR, XOR, INV, SHL, SHR, MUL, LESS, EXIT,
EMIT, KEY, FROMR, TOR, JMP, JMPZ, PNUM, QUOTE, COMMA, EQUAL, SWAP, DUP,
DROP, OVER, TAIL, BSAVE, BLOAD, FIND, PRINT, PSTK. -/
def primList : List (Cfg → Nat → Nat → RState → StepR) :=
  [primPush, primCompile, primRun, primDefine, primImmediate, primComment,
   primRead, primLoad, primStore, primSub, primAdd, primAnd, primOr, primXor,
   primInv, primShl, primShr, primMul, primLess, primExit, primEmit, primKey,
   primFromr, primTor, primJmp, primJmpz, primPnum, primQuote, primComma,
   primEqual, primSwap, primDup, primDrop, primOver, primTail, primBsave,
   primBload, primFind, primPrintOp, primPstk]

/-- One dispatch of the inner interpreter:
`switch (b(m[ck(pc++)]))` — fetch the cell at `pc` (bounds-checked),
mask it with `INSTRUCTION_MASK = 0x7f`, and run the primitive with the
incremented `pc`. -/
def step (cfg : Cfg) (fuel pc : Nat) (st : RState) : StepR :=
  if check_bounds cfg.cs pc then
    (primList.getD (st.m pc % 128) primBad) cfg fuel ((pc + 1) % CELL) st
  else .fail st

/-- Outcome of the interpreter loops. -/
inductive LoopR : Type where
  | halt : RState → LoopR
  | fail : RState → LoopR
  | div : LoopR

/-- Run chained dispatches from `goto INNER` until the primitive breaks
back to the outer loop, ends or aborts. -/
def innerChain : Nat → Cfg → Nat → RState → StepR
  | 0, _, _, _ => .div
  | fuel + 1, cfg, pc, st =>
    match step cfg fuel pc st with
    | .jump pc2 st2 => innerChain fuel cfg pc2 st2
    | r => r

/-- The outer loop of `forth_run`:
`for (; (pc = m[ck(I++)]); ) { ... }` — fetch the next word pointer at
`I`; zero ends the run; otherwise dispatch at that `pc`. -/
def runLoop : Nat → Cfg → RState → LoopR
  | 0, _, _ => .div
  | fuel + 1, cfg, st =>
    if check_bounds cfg.cs st.I then
      let pc := st.m st.I
      let st1 := { st with I := (st.I + 1) % CELL }
      if pc = 0 then .halt st1
      else
        match innerChain (fuel + 1) cfg pc st1 with
        | .next st2 => runLoop fuel cfg st2
        | .jump _ _ => .div
        | .halt st2 => .halt st2
        | .fail st2 => .fail st2
        | .div => .div
    else .fail st

/-- The `forth` object as far as `forth_run` and the stack API touch
it: the image, the stored stack pointer `S`, the stored top of stack,
the stored instruction pointer `I`, the sticky `invalid` flag, and the
string-input bookkeeping. -/
structure Forth : Type where
  m : Nat → Nat
  S : Nat
  top : Nat
  I : Nat
  invalid : Bool
  sin : List Char
  sidx : Nat
  sbuf : List Char
  out : List OutEvent

/-- The run-local state built at the top of `forth_run`
(`f = o->top; S = o->S; I = o->I`). -/
def rstateOf (o : Forth) : RState :=
  ⟨o.m, o.S, o.top, o.I, o.sin, o.sidx, o.sbuf, o.out⟩

/-- `end: o->top = f; return 0` — of the locals only the cached top is
written back to the object; the image and input cursor were mutated in
place. -/
def haltWriteback (o : Forth) (st : RState) : Forth :=
  { o with
    top := st.f, m := st.m, sidx := st.sidx, sbuf := st.sbuf,
    out := st.out }

/-- The `longjmp` landing: `return -(o->invalid = 1)` — `o->top`,
`o->S`, `o->I` keep their pre-run values; in-place mutations (image,
input cursor) persist. -/
def abortWriteback (o : Forth) (st : RState) : Forth :=
  { o with
    invalid := true, m := st.m, sidx := st.sidx, sbuf := st.sbuf,
    out := st.out }

/-- `forth_run`: an invalid object fails at once with −1; otherwise run
the interpreter loop; normal termination stores the cached top back and
returns 0; an abort marks the object invalid and returns −1.  `none`
stands for the C code not having terminated within `fuel`. -/
def forth_run (fuel : Nat) (cfg : Cfg) (o : Forth) : Option (Int × Forth) :=
  if o.invalid then some (-1, { o with invalid := true })
  else
    match runLoop fuel cfg (rstateOf o) with
    | .halt st => some (0, haltWriteback o st)
    | .fail st => some (-1, abortWriteback o st)
    | .div => none

/-- `forth_stack_position`: `o->S - o->m` (here `S` is already a cell
index). -/
def forth_stack_position (o : Forth) : Nat := o.S

/-- `forth_pop`: return the cached top, refill it from `*S--`. -/
def forth_pop (o : Forth) : Nat × Forth :=
  (o.top, { o with top := o.m o.S, S := o.S - 1 })

/-- `forth_push`: `*++(o->S) = o->top; o->top = f`. -/
def forth_push (o : Forth) (f : Nat) : Forth :=
  { o with
    m := Function.update o.m (o.S + 1) (o.top % CELL), S := o.S + 1,
    top := f }

/-- The push `*++S = f; f = x` at the `RState` level (what the `PUSH`
primitive and the number branch of `READ` do to the stack). -/
def pushR (x : Nat) (st : RState) : RState :=
  { st with
    m := Function.update st.m (st.S + 1) (st.f % CELL),
    S := st.S + 1, f := x }

/-- Side conditions under which a primitive other than `IMMEDIATE`
cannot decrease the dictionary pointer `image[0]`: its data-directed
image writes must not land on cell 0 and the dictionary-pointer
arithmetic must not wrap around the 16-bit cell.  Opcodes are numbered
as in `primList`. -/
def dicHyp (op : Nat) (st : RState) : Prop :=
  if op = 1 ∨ op = 28 then st.m 0 + 1 < CELL
  else if op = 2 ∨ op = 23 then (st.m 1 + 1) % CELL ≠ 0
  else if op = 3 then 1 ≤ st.m 0 ∧ st.m 0 + 19 < CELL
  else if op = 6 then st.m 0 + 2 < CELL
  else if op = 8 then st.f ≠ 0
  else if op = 30 then st.S ≠ 0
  else if op = 36 then 2 ≤ st.m st.S
  else True

/-- A small test configuration: 128 cells, no block files. -/
def cexCfg : Cfg := ⟨128, 2, fun _ => false, fun _ => false, fun _ => []⟩

/-- A configuration with `core_size = 32768` cells (the `CORE_SIZE` of
`libforth.c`) whose block files all exist and hold 1024 sevens. -/
def blkCfg : Cfg :=
  ⟨32768, 512, fun _ => true, fun _ => true, fun _ => List.replicate 1024 7⟩

/-- The all-zero image. -/
def zeroM : Nat → Nat := fun _ => 0

/-- A state about to dispatch `IMMEDIATE` (opcode 4 at cell 5) whose
dictionary pointer 130 lies beyond the 128-cell core. -/
def c1St : RState :=
  ⟨fun i => if i = 5 then 4 else if i = 0 then 130 else 0,
   100, 0, 70, [], 0, [], []⟩

/-- A state about to dispatch `IMMEDIATE` (opcode 4 at cell 5) with
dictionary pointer 100. -/
def c3St : RState :=
  ⟨fun i => if i = 5 then 4 else if i = 0 then 100 else 0,
   100, 0, 70, [], 0, [], []⟩

/-- An image holding one dictionary word: `PWD = 70`, name `ab` in the
bytes of cells 68–69, link field 1 (the sentinel) at cell 70, flags
cell `(2 << 8) | COMPILE = 513` at cell 71, and a `READ` opcode at
cell 5. -/
def wordM : Nat → Nat := fun i =>
  if i = 10 then 70 else if i = 71 then 513 else if i = 68 then 25185
  else if i = 70 then 1 else if i = 5 then 6 else 0

/-- A state about to dispatch `READ` (at cell 5) on input `ab 5` over
the image `wordM`. -/
def c2St : RState := ⟨wordM, 90, 3, 70, ['a', 'b', ' ', '5'], 0, [], []⟩

/-- An image with an empty dictionary (`PWD = 1`) and a `READ` opcode
at cell 100. -/
def numM : Nat → Nat := fun i => if i = 10 then 1 else if i = 100 then 6 else 0

/-- A state about to dispatch `READ` (at cell 100) on input `57` in
interpret mode, dictionary empty. -/
def c9St : RState := ⟨numM, 90, 3, 70, ['5', '7'], 0, [], []⟩

/-- A state about to dispatch `STORE` (opcode 8 at cell 5) with
`f = 77`, `m[90] = 42` (value) and `m[89] = 17` (below it). -/
def c4St : RState :=
  ⟨fun i => if i = 5 then 8 else if i = 90 then 42 else if i = 89 then 17 else 0,
   90, 77, 70, [], 0, [], []⟩

/-- A core whose instruction stream ends at once: `m[I] = 0`. -/
def haltO : Forth := ⟨zeroM, 100, 7, 70, false, [], 0, [], []⟩

/-- A core whose first fetched word points at an illegal opcode
(cell 70 holds 70, and `70 & 0x7f = 70` is past `PSTK`). -/
def abortO : Forth :=
  ⟨fun i => if i = 70 then 70 else 0, 100, 7, 70, false, [], 0, [], []⟩

/-- The object state `abortO` reaches when its run aborts: the local
`I` had been incremented and the `longjmp` marked the core invalid. -/
def abortedO : Forth := abortWriteback abortO { rstateOf abortO with I := 71 }

/-! ### Helper lemmas -/

theorem upd_at_ne (m : Nat → Nat) (i v j : Nat) (h : j ≠ i) :
    Function.update m i v j = m j := Function.update_noteq h v m

theorem writeBytesCells_at_zero (bs : List Nat) :
    ∀ (m : Nat → Nat) (boff : Nat), 2 ≤ boff →
      writeBytesCells m boff bs 0 = m 0 := by
  induction bs with
  | nil => intro m boff _; rfl
  | cons b bs ih =>
    intro m boff h
    show writeBytesCells (setByte m boff b) (boff + 1) bs 0 = m 0
    rw [ih _ _ (by omega)]
    unfold setByte
    exact upd_at_ne _ _ _ _ (by omega)

theorem writeBytesCells_lo (bs : List Nat) :
    ∀ (m : Nat → Nat) (boff j : Nat), 2 * j + 1 < boff →
      writeBytesCells m boff bs j = m j := by
  induction bs with
  | nil => intro m boff j _; rfl
  | cons b bs ih =>
    intro m boff j h
    show writeBytesCells (setByte m boff b) (boff + 1) bs j = m j
    rw [ih _ _ _ (by omega)]
    unfold setByte
    exact upd_at_ne _ _ _ _ (by omega)

theorem writeBytesCells_hi (bs : List Nat) :
    ∀ (m : Nat → Nat) (boff j : Nat), boff + bs.length ≤ 2 * j →
      writeBytesCells m boff bs j = m j := by
  induction bs with
  | nil => intro m boff j _; rfl
  | cons b bs ih =>
    intro m boff j h
    simp only [List.length_cons] at h
    show writeBytesCells (setByte m boff b) (boff + 1) bs j = m j
    rw [ih _ _ _ (by omega)]
    unfold setByte
    exact upd_at_ne _ _ _ _ (by omega)

theorem blockio_write_m (cfg : Cfg) (m : Nat → Nat) (p id : Nat) :
    (blockio cfg m p id true).2 = m := by
  unfold blockio
  split
  · rfl
  · simp only [if_true]
    split <;> rfl

theorem blockio_read_zero (cfg : Cfg) (m : Nat → Nat) (p id : Nat)
    (h2 : 2 ≤ p) : (blockio cfg m p id false).2 0 = m 0 := by
  unfold blockio
  split
  · rfl
  · simp only [Bool.false_eq_true, if_false]
    split
    · exact writeBytesCells_at_zero _ _ _ h2
    · rfl

theorem stepSt?_next (st : RState) : stepSt? (.next st) = some st := rfl

theorem stepSt?_jump (pc : Nat) (st : RState) :
    stepSt? (.jump pc st) = some st := rfl

theorem stepSt?_halt (st : RState) : stepSt? (.halt st) = some st := rfl

theorem step_eq (cfg : Cfg) (fuel pc : Nat) (st : RState) (hpc : pc < cfg.cs) :
    step cfg fuel pc st =
      (primList.getD (st.m pc % 128) primBad) cfg fuel ((pc + 1) % CELL) st := by
  unfold step
  rw [if_pos (show check_bounds cfg.cs pc = true from decide_eq_true hpc)]

theorem forth_invalid_run (fuel : Nat) (cfg : Cfg) (o : Forth)
    (h : o.invalid = true) :
    forth_run fuel cfg o = some (-1, { o with invalid := true }) := by
  unfold forth_run
  rw [if_pos h]

/-! ### C1 -/

/-- C1, counterexample: the `IMMEDIATE` primitive dispatched on `c1St`
(dictionary pointer 130, core of 128 cells) writes the image at index
128, which is out of bounds (`check_bounds` would reject it), changing
that cell from 0 to 2, and still completes without any abort — so not
every image access of a primitive is bounds-checked. -/
theorem c1_cex :
    (stepSt? (step cexCfg 1 5 c1St)).map (fun s => s.m 128) = some 2 ∧
    c1St.m 128 = 0 ∧ check_bounds cexCfg.cs 128 = false :=
  ⟨rfl, rfl, rfl⟩

/-- C1, amended: indices that do go through `check_bounds` abort the
dispatch when they reach `core_size` — the instruction fetch of the
dispatcher, and the checked primitive accesses such as `LOAD`'s and
`STORE`'s, turn into the `longjmp` outcome — and a `forth_run` that
does not return 0 has returned −1 with the `invalid` flag set.  (Not
every image access is checked: see the counterexample.) -/
theorem c1_checked_aborts :
    (∀ (cfg : Cfg) (fuel pc : Nat) (st : RState), cfg.cs ≤ pc →
      step cfg fuel pc st = .fail st) ∧
    (∀ (cfg : Cfg) (fuel pc1 : Nat) (st : RState), cfg.cs ≤ st.f →
      primLoad cfg fuel pc1 st = .fail st ∧
        primStore cfg fuel pc1 st = .fail st) ∧
    (∀ (fuel : Nat) (cfg : Cfg) (o o2 : Forth) (r : Int),
      forth_run fuel cfg o = some (r, o2) → r ≠ 0 →
        r = -1 ∧ o2.invalid = true) := by
  refine ⟨?_, ?_, ?_⟩
  · intro cfg fuel pc st h
    unfold step
    rw [if_neg]
    simp only [check_bounds, decide_eq_true_eq]
    omega
  · intro cfg fuel pc1 st h
    constructor
    · unfold primLoad
      rw [if_neg]
      simp only [check_bounds, decide_eq_true_eq]
      omega
    · unfold primStore
      rw [if_neg]
      simp only [check_bounds, decide_eq_true_eq]
      omega
  · intro fuel cfg o o2 r h hr
    unfold forth_run at h
    by_cases hi : o.invalid
    · rw [if_pos hi] at h
      simp only [Option.some.injEq, Prod.mk.injEq] at h
      obtain ⟨h1, h2⟩ := h
      subst h1
      subst h2
      exact ⟨rfl, rfl⟩
    · rw [if_neg hi] at h
      rcases hR : runLoop fuel cfg (rstateOf o) with st | st
      · rw [hR] at h
        simp only [Option.some.injEq, Prod.mk.injEq] at h
        exact absurd h.1.symm hr
      · rw [hR] at h
        simp only [Option.some.injEq, Prod.mk.injEq] at h
        obtain ⟨h1, h2⟩ := h
        subst h1
        subst h2
        exact ⟨rfl, rfl⟩
      · rw [hR] at h
        simp at h

/-- C1, witness for the amended theorem at concrete inputs: the
dispatcher refuses `pc = 200` on a 128-cell core; `STORE` with
`f = 200` aborts; the aborting run of `abortO` returned −1 and left the
core invalid. -/
theorem c1_witness :
    step cexCfg 1 200 c1St = .fail c1St ∧
    primStore cexCfg 1 0 { c1St with f := 200 } = .fail { c1St with f := 200 } ∧
    ((-1 : Int) = -1 ∧ abortedO.invalid = true) := by
  refine ⟨?_, ?_, ?_⟩
  · exact c1_checked_aborts.1 cexCfg 1 200 c1St (by decide)
  · exact (c1_checked_aborts.2.1 cexCfg 1 0 { c1St with f := 200 } (by decide)).2
  · exact c1_checked_aborts.2.2 3 cexCfg abortO abortedO (-1) rfl (by decide)

/-! ### C4 -/

/-- C4: `STORE` writes the second stack element into the image at the
cached top-of-stack index and pops both: after the dispatch the cell at
the old `f` holds the old `*S`, the new `f` is the old `*(S-1)`, `S`
has dropped by two and no other image cell changed; and executing the
pushes of `value` and `address` followed by `STORE` leaves
`image[address] = value`. -/
theorem c4_store (cfg : Cfg) (fuel pc : Nat) (st : RState)
    (hpc : pc < cfg.cs) (hop : st.m pc % 128 = 8) (hf : st.f < cfg.cs)
    (_hS : 2 ≤ st.S) (hal : st.f ≠ st.S - 1) (hv : st.m st.S < CELL) :
    (stepSt? (step cfg fuel pc st)).map (fun s => s.m st.f) = some (st.m st.S) ∧
    (stepSt? (step cfg fuel pc st)).map (fun s => s.f) = some (st.m (st.S - 1)) ∧
    (stepSt? (step cfg fuel pc st)).map (fun s => s.S) = some (st.S - 2) ∧
    (∀ j, j ≠ st.f →
      (stepSt? (step cfg fuel pc st)).map (fun s => s.m j) = some (st.m j)) ∧
    (∀ (v a : Nat) (st0 : RState), a < cfg.cs →
      (pushR a (pushR v st0)).m pc % 128 = 8 →
      (stepSt? (step cfg fuel pc (pushR a (pushR v st0)))).map
          (fun s => s.m a) = some (v % CELL)) := by
  rw [step_eq cfg fuel pc st hpc, hop,
    (show primList.getD 8 primBad = primStore from rfl)]
  unfold primStore
  rw [if_pos (show check_bounds cfg.cs st.f = true from decide_eq_true hf)]
  refine ⟨?_, ?_, ?_, ?_, ?_⟩
  · simp only [stepSt?, Option.map_some', setMem, Function.update_same]
    exact congrArg some (Nat.mod_eq_of_lt hv)
  · simp only [stepSt?, Option.map_some', setMem]
    rw [upd_at_ne _ _ _ _ (fun h => hal h.symm)]
  · rfl
  · intro j hj
    simp only [stepSt?, Option.map_some', setMem]
    rw [upd_at_ne _ _ _ _ hj]
  · intro v a st0 ha hop2
    rw [step_eq cfg fuel pc _ hpc, hop2,
      (show primList.getD 8 primBad = primStore from rfl)]
    unfold primStore
    rw [if_pos (show check_bounds cfg.cs (pushR a (pushR v st0)).f = true from
      decide_eq_true ha)]
    simp only [stepSt?, Option.map_some', setMem, pushR, Function.update_same,
      Option.some.injEq, CELL]
    omega

/-- C4, witness: on `c4St` (`f = 77`, `m[90] = 42`, `m[89] = 17`,
`S = 90`), `STORE` leaves `m[77] = 42`, `f = 17` and `S = 88`. -/
theorem c4_witness :
    (stepSt? (step cexCfg 1 5 c4St)).map (fun s => s.m 77) = some 42 ∧
    (stepSt? (step cexCfg 1 5 c4St)).map (fun s => s.f) = some 17 ∧
    (stepSt? (step cexCfg 1 5 c4St)).map (fun s => s.S) = some 88 := by
  have h := c4_store cexCfg 1 5 c4St (by decide) (by decide) (by decide)
    (by decide) (by decide) (by decide)
  exact ⟨h.1, h.2.1, h.2.2.1⟩

/-! ### C5 -/

/-- C5: a completed `forth_run` that returns 0 leaves `invalid` false;
one that returns non-zero leaves `invalid` true, and every later
`forth_run` on that core returns −1 at once with the core unchanged. -/
theorem c5_sticky (fuel : Nat) (cfg : Cfg) (o o2 : Forth) (r : Int)
    (h : forth_run fuel cfg o = some (r, o2)) :
    (r = 0 → o2.invalid = false) ∧
    (r ≠ 0 → o2.invalid = true ∧
      ∀ k, forth_run k cfg o2 = some (-1, o2)) := by
  unfold forth_run at h
  by_cases hi : o.invalid
  · rw [if_pos hi] at h
    simp only [Option.some.injEq, Prod.mk.injEq] at h
    obtain ⟨h1, h2⟩ := h
    subst h1
    subst h2
    refine ⟨fun h0 => absurd h0 (by decide), fun _ => ⟨rfl, fun k => rfl⟩⟩
  · rw [if_neg hi] at h
    rcases hR : runLoop fuel cfg (rstateOf o) with st | st
    · rw [hR] at h
      simp only [Option.some.injEq, Prod.mk.injEq] at h
      obtain ⟨h1, h2⟩ := h
      subst h1
      subst h2
      refine ⟨fun _ => ?_, fun h0 => absurd rfl h0⟩
      have : (haltWriteback o st).invalid = o.invalid := rfl
      rw [this]
      simpa using hi
    · rw [hR] at h
      simp only [Option.some.injEq, Prod.mk.injEq] at h
      obtain ⟨h1, h2⟩ := h
      subst h1
      subst h2
      exact ⟨fun h0 => absurd h0 (by decide), fun _ => ⟨rfl, fun k => rfl⟩⟩
    · rw [hR] at h
      simp at h

/-- C5, witness: the aborting run of `abortO` (illegal opcode) returned
−1; the resulting core is invalid and a further run of fuel 2 returns
−1 with the core unchanged. -/
theorem c5_witness :
    abortedO.invalid = true ∧
    forth_run 2 cexCfg abortedO = some (-1, abortedO) := by
  have h := (c5_sticky 3 cexCfg abortO abortedO (-1) rfl).2 (by decide)
  exact ⟨h.1, h.2 2⟩

/-! ### C7 -/

/-- C7, counterexample: on a 32768-cell core (65536 bytes), the offset
40000 is within the byte bound `2·core_size − BLOCK_SIZE = 64512`
claimed by the specification, and the block-file oracle guarantees a
successful 1024-byte read, yet `blockio` returns −1 without touching
the image: the code compares against `core_size` in cells, not in
bytes. -/
theorem c7_cex :
    (blockio blkCfg zeroM 40000 0 false).1 = -1 ∧
    (blockio blkCfg zeroM 40000 0 false).2 = zeroM ∧
    40000 ≤ 2 * blkCfg.cs - BLOCK_SIZE ∧
    blkCfg.rOk 0 = true ∧ BLOCK_SIZE ≤ (blkCfg.blk 0).length := by
  refine ⟨rfl, rfl, by decide, rfl, ?_⟩
  simp only [blkCfg, List.length_replicate, BLOCK_SIZE, le_refl]

/-- C7, amended: `blockio` fails with −1 and does not touch the image
whenever the byte offset exceeds `core_size − BLOCK_SIZE` with
`core_size` counted in cells; for offsets at or below that bound the
offset precondition is passed and the transfer is attempted (a read
whose file opens and holds 1024 bytes succeeds). -/
theorem c7_blockio_bound (cfg : Cfg) (m : Nat → Nat) (poffset id : Nat)
    (_hcs : BLOCK_SIZE ≤ cfg.cs) :
    (cfg.cs - BLOCK_SIZE < poffset →
      blockio cfg m poffset id false = (-1, m) ∧
        blockio cfg m poffset id true = (-1, m)) ∧
    (poffset ≤ cfg.cs - BLOCK_SIZE → cfg.rOk id = true →
      BLOCK_SIZE ≤ (cfg.blk id).length →
        (blockio cfg m poffset id false).1 = 0) := by
  constructor
  · intro h
    constructor <;> (unfold blockio; rw [if_pos (by omega)])
  · intro h hr hl
    unfold blockio
    rw [if_neg (by omega)]
    simp only [Bool.false_eq_true, if_false, hr, if_true]
    simp [List.length_take, Nat.min_eq_left hl]

/-- C7, witness for the amended theorem: offset 40000 on the 32768-cell
core fails without touching the image; offset 31744 (the exact bound)
is accepted and the read succeeds. -/
theorem c7_witness :
    blockio blkCfg zeroM 40000 1 false = (-1, zeroM) ∧
    (blockio blkCfg zeroM 31744 1 false).1 = 0 := by
  constructor
  · exact ((c7_blockio_bound blkCfg zeroM 40000 1 (by decide)).1 (by decide)).1
  · exact (c7_blockio_bound blkCfg zeroM 31744 1 (by decide)).2 (by decide) rfl
      (by simp only [blkCfg, List.length_replicate, BLOCK_SIZE, le_refl])

/-! ### C6 -/

theorem takeWhile_len_le (p : Char → Bool) :
    ∀ l : List Char, (l.takeWhile p).length ≤ l.length := by
  intro l
  induction l with
  | nil => simp
  | cons a t ih =>
    by_cases h : p a
    · simp [List.takeWhile_cons, h]
      omega
    · simp [List.takeWhile_cons, h]

theorem drop_takeWhile (p : Char → Bool) :
    ∀ l : List Char, l.drop (l.takeWhile p).length = l.dropWhile p := by
  intro l
  induction l with
  | nil => rfl
  | cons a t ih =>
    by_cases h : p a <;>
      simp [List.takeWhile_cons, List.dropWhile_cons, h, ih]

/-- C6, counterexample: on the two-byte file input `ab`, the
file-handle variant of `forth_get_word` consumes both bytes but
returns 1 (the `fscanf` conversion count), not the number of bytes
consumed — refuting the claim for the file variant. -/
theorem c6_cex :
    (forth_get_word_file ['a', 'b']).1 = 1 ∧
    (['a', 'b'] : List Char).length -
        (forth_get_word_file ['a', 'b']).2.1.length = 2 ∧
    (1 : Int) ≠ 2 := by decide

/-- C6, amended: both variants skip leading whitespace, read at most 31
non-whitespace bytes and hit `EOF` exactly when the source is exhausted
before any non-whitespace byte; the string variant returns the number
of bytes consumed (whitespace included) and advances the cursor by it,
but the file variant returns the `fscanf` conversion count 1 on
success. -/
theorem c6_get_word :
    (∀ (sin : List Char) (sidx : Nat),
      (scan31 (sin.drop sidx) = none ↔
        (sin.drop sidx).dropWhile isWs = [])) ∧
    (∀ (sin : List Char) (sidx : Nat) (tok : List Char) (n : Nat),
      scan31 (sin.drop sidx) = some (tok, n) →
      forth_get_word_str sin sidx = ((n : Int), sidx + n, some tok) ∧
      tok.length ≤ 31 ∧ (∀ c ∈ tok, isWs c = false) ∧
      ((sin.drop sidx).takeWhile isWs).length + tok.length = n) ∧
    (∀ (stream tok : List Char) (n : Nat),
      scan31 stream = some (tok, n) →
      (forth_get_word_file stream).1 = 1 ∧
      (forth_get_word_file stream).2.1 = stream.drop n ∧
      n ≤ stream.length) := by
  have hinv : ∀ (s tok : List Char) (n : Nat), scan31 s = some (tok, n) →
      tok = ((s.dropWhile isWs).takeWhile (fun c => !isWs c)).take 31 ∧
      n = (s.takeWhile isWs).length + tok.length := by
    intro s tok n h
    simp only [scan31, drop_takeWhile] at h
    split at h
    · exact absurd h (by simp)
    · simp only [Option.some.injEq, Prod.mk.injEq] at h
      obtain ⟨h1, h2⟩ := h
      subst h1
      exact ⟨rfl, h2.symm⟩
  have htok : ∀ s : List Char,
      (((s.dropWhile isWs).takeWhile (fun c => !isWs c)).take 31).length ≤ 31 := by
    intro s
    simp [List.length_take]
  have hmem : ∀ (s : List Char) (c : Char),
      c ∈ ((s.dropWhile isWs).takeWhile (fun c => !isWs c)).take 31 →
      isWs c = false := by
    intro s c hc
    have := List.mem_takeWhile_imp (List.take_subset _ _ hc)
    simpa using this
  refine ⟨?_, ?_, ?_⟩
  · intro sin sidx
    simp only [scan31, drop_takeWhile]
    split
    · simp_all [List.isEmpty_iff]
    · simp_all [List.isEmpty_iff]
  · intro sin sidx tok n h
    obtain ⟨ht, hn⟩ := hinv _ _ _ h
    refine ⟨?_, ?_, ?_, hn.symm ▸ rfl⟩
    · unfold forth_get_word_str
      rw [h]
    · exact ht ▸ htok _
    · intro c hc
      exact hmem _ c (ht ▸ hc)
  · intro stream tok n h
    obtain ⟨ht, hn⟩ := hinv _ _ _ h
    have h1 : (forth_get_word_file stream).1 = 1 := by
      unfold forth_get_word_file
      rw [h]
    have h2 : (forth_get_word_file stream).2.1 = stream.drop n := by
      unfold forth_get_word_file
      rw [h]
    refine ⟨h1, h2, ?_⟩
    have hw := takeWhile_len_le isWs stream
    have hd : (stream.dropWhile isWs).length =
        stream.length - (stream.takeWhile isWs).length := by
      rw [← drop_takeWhile isWs stream]
      exact List.length_drop _ _
    have htw := takeWhile_len_le (fun c => !isWs c) (stream.dropWhile isWs)
    have hta : tok.length ≤
        ((stream.dropWhile isWs).takeWhile (fun c => !isWs c)).length := by
      rw [ht]
      simp [List.length_take]
    omega

/-- C6, witness for the amended theorem: on the input ` ab` the string
variant consumes and returns 3 (one space plus two token bytes), the
file variant returns 1, and the empty source is `EOF`. -/
theorem c6_witness :
    forth_get_word_str [' ', 'a', 'b'] 0 = (3, 3, some ['a', 'b']) ∧
    (forth_get_word_file [' ', 'a', 'b']).1 = 1 ∧
    (scan31 ([] : List Char) = none ↔
      ([] : List Char).dropWhile isWs = []) := by
  refine ⟨?_, ?_, c6_get_word.1 [] 0⟩
  · exact (c6_get_word.2.1 [' ', 'a', 'b'] 0 ['a', 'b'] 3 (by decide)).1
  · exact (c6_get_word.2.2 [' ', 'a', 'b'] ['a', 'b'] 3 (by decide)).1

/-! ### C8 -/

theorem charAt_nil (n : Nat) : charAt [] n = nulChar := by
  simp [charAt]

theorem charAt_cons_zero (a : Char) (l : List Char) : charAt (a :: l) 0 = a :=
  rfl

theorem charAt_cons_succ (a : Char) (l : List Char) (n : Nat) :
    charAt (a :: l) (n + 1) = charAt l n := rfl

theorem charAt_cons_two (a b : Char) (l : List Char) (n : Nat) :
    charAt (a :: b :: l) (n + 2) = charAt l n := rfl

theorem charAt_zero_nul (t : List Char) (h : nulChar ∉ t) :
    (charAt t 0 = nulChar) ↔ t = [] := by
  cases t with
  | nil => simp [charAt_nil]
  | cons c r =>
    simp only [charAt_cons_zero]
    constructor
    · intro hc
      exact absurd (hc ▸ List.mem_cons_self c r) h
    · intro hF
      simp at hF

theorem span_nul_iff (D : List Char) :
    ∀ t : List Char, nulChar ∉ t →
      ((charAt t (spanLen D t) = nulChar) ↔
        t.all (fun c => D.contains c) = true) := by
  intro t
  induction t with
  | nil => intro _; simp [charAt_nil, spanLen]
  | cons c r ih =>
    intro h
    have hc : c ≠ nulChar := fun hcc => h (hcc ▸ List.mem_cons_self c r)
    have hr : nulChar ∉ r := fun hm => h (List.mem_cons_of_mem c hm)
    by_cases hD : D.contains c
    · have hsp : spanLen D (c :: r) = spanLen D r + 1 := by
        unfold spanLen
        rw [List.takeWhile_cons, if_pos hD]
        rfl
      rw [hsp, charAt_cons_succ, List.all_cons, hD, Bool.true_and]
      exact ih hr
    · have hsp : spanLen D (c :: r) = 0 := by
        unfold spanLen
        rw [List.takeWhile_cons, if_neg hD]
        rfl
      rw [hsp, charAt_cons_zero, List.all_cons]
      constructor
      · intro hcc
        exact absurd hcc hc
      · intro hand
        rw [Bool.and_eq_true] at hand
        exact absurd hand.1 hD

theorem numberGrammar_strip (s : List Char) :
    numberGrammar s = grammarBody (if charAt s 0 = '-' then s.drop 1 else s) := by
  unfold numberGrammar
  congr 1
  cases s with
  | nil => rfl
  | cons c r =>
    by_cases hc : c = '-'
    · subst hc
      rfl
    · simp only [charAt_cons_zero, if_neg hc]
      split
      · rename_i heq
        rw [List.cons.injEq] at heq
        exact absurd heq.1 hc
      · rfl

theorem is_number_eq_grammar (s : List Char) (h : nulChar ∉ s) :
    is_number s = numberGrammar s := by
  rw [numberGrammar_strip]
  unfold is_number
  have hnu : nulChar ∉ (if charAt s 0 = '-' then s.drop 1 else s) := by
    split
    · exact fun hm => h (List.drop_subset _ _ hm)
    · exact h
  generalize hgen : (if charAt s 0 = '-' then s.drop 1 else s) = u at hnu ⊢
  clear hgen h
  cases u with
  | nil => rfl
  | cons c r =>
    have hc0 : c ≠ nulChar := fun hcc => hnu (hcc ▸ List.mem_cons_self c r)
    have hnr : nulChar ∉ r := fun hm => hnu (List.mem_cons_of_mem c hm)
    by_cases h0 : c = '0'
    · subst h0
      cases r with
      | nil => rfl
      | cons c2 r2 =>
        have hnr2 : nulChar ∉ r2 := fun hm => hnr (List.mem_cons_of_mem c2 hm)
        by_cases hx : c2 = 'x'
        · subst hx
          cases r2 with
          | nil => rfl
          | cons c3 r3 =>
            have hc3 : c3 ≠ nulChar :=
              fun hcc => hnr2 (hcc ▸ List.mem_cons_self c3 r3)
            have hsp := span_nul_iff hexDigits (c3 :: r3) hnr2
            show (decide (charAt (c3 :: r3)
                  (spanLen hexDigits (c3 :: r3)) = nulChar) &&
                decide (charAt (c3 :: r3) 0 ≠ nulChar)) =
              ((c3 :: r3).all fun c => hexDigits.contains c)
            rw [Bool.eq_iff_iff]
            simp only [Bool.and_eq_true, decide_eq_true_eq]
            constructor
            · rintro ⟨h1, _⟩
              exact hsp.mp h1
            · intro hC
              exact ⟨hsp.mpr hC, hc3⟩
        · -- octal branch: `charAt t 1 = c2 ≠ 'x'`
          have hsp := span_nul_iff octDigits ('0' :: c2 :: r2) hnu
          show (if c2 = 'x' then
                  decide (charAt r2 (spanLen hexDigits r2) = nulChar) &&
                    decide (charAt r2 0 ≠ nulChar)
                else decide (charAt ('0' :: c2 :: r2)
                  (spanLen octDigits ('0' :: c2 :: r2)) = nulChar)) =
            grammarBody ('0' :: c2 :: r2)
          rw [if_neg hx]
          unfold grammarBody
          split
          · rename_i heq
            rw [List.cons.injEq, List.cons.injEq] at heq
            exact absurd heq.2.1 hx
          · rename_i heq
            rw [List.cons.injEq] at heq
            rw [← heq.2]
            rw [Bool.eq_iff_iff]
            simp only [decide_eq_true_eq]
            exact hsp
          · rename_i h1 h2
            exact absurd rfl (h2 (c2 :: r2))
    · -- decimal branch: `charAt t 0 = c ≠ '0'`
      have hsp := span_nul_iff decDigits (c :: r) hnu
      show (if c = '0' then
              (if charAt (c :: r) 1 = 'x' then
                decide (charAt (c :: r)
                    (spanLen hexDigits (List.drop 2 (c :: r)) + 2) = nulChar) &&
                  decide (charAt (c :: r) 2 ≠ nulChar)
              else decide (charAt (c :: r)
                (spanLen octDigits (c :: r)) = nulChar))
            else decide (charAt (c :: r)
                (spanLen decDigits (c :: r)) = nulChar) &&
              decide (c ≠ nulChar)) =
        grammarBody (c :: r)
      rw [if_neg h0]
      unfold grammarBody
      split
      · rename_i heq
        rw [List.cons.injEq] at heq
        exact absurd heq.1 h0
      · rename_i heq
        rw [List.cons.injEq] at heq
        exact absurd heq.1 h0
      · rw [Bool.eq_iff_iff]
        simp only [Bool.and_eq_true, decide_eq_true_eq]
        constructor
        · rintro ⟨h1, _⟩
          exact ⟨rfl, hsp.mp h1⟩
        · intro hC
          exact ⟨hsp.mpr hC.2, hc0⟩

/-- C8: `is_number` agrees with the specification's number grammar on
every NUL-free string (the grammar's alternatives guarded in order, as
the spec's "otherwise" prescribes); in particular the empty string and
`-` alone are not numbers. -/
theorem c8_is_number (s : List Char) (h : nulChar ∉ s) :
    is_number s = numberGrammar s ∧
    is_number [] = false ∧ is_number ['-'] = false :=
  ⟨is_number_eq_grammar s h, rfl, rfl⟩

/-- C8, witness: the equivalence applied to the NUL-free string `0x1f`
(a number) — and the empty string and `-` alone are not numbers. -/
theorem c8_witness :
    is_number ['0', 'x', '1', 'f'] = numberGrammar ['0', 'x', '1', 'f'] ∧
    is_number [] = false ∧ is_number ['-'] = false :=
  c8_is_number ['0', 'x', '1', 'f'] (by decide)

/-! ### C2 -/

theorem readSt2_m_ne (st : RState) (tok : List Char) (si2 j : Nat)
    (hj : j ≠ 1)
    (hr : j < STRING_OFFSET ∨ (tok.length ≤ 31 ∧ STRING_OFFSET + 16 ≤ j)) :
    (readSt2 st tok si2).m j = st.m j := by
  show writeBytesCells (Function.update st.m 1 ((st.m 1 + CELL - 1) % CELL))
    (2 * STRING_OFFSET) (strBytes tok) j = st.m j
  rcases hr with h | ⟨hl, h⟩
  · rw [writeBytesCells_lo _ _ _ _
      (by simp only [STRING_OFFSET] at h ⊢; omega)]
    exact upd_at_ne _ _ _ _ hj
  · rw [writeBytesCells_hi _ _ _ _ (by
      have hlen : (strBytes tok).length = tok.length + 1 := by
        simp [strBytes]
      rw [hlen]
      simp only [STRING_OFFSET] at h ⊢
      omega)]
    exact upd_at_ne _ _ _ _ hj

/-- C2: when `READ` finds the parsed word in the dictionary (`find`
returns `w` above the sentinel 1), the interpreter re-enters the
dispatcher at `pc = w + 1`, advanced by exactly one more cell when the
`STATE` register is 0 (interpreting) and the primitive opcode in the
cell at that `pc` is `COMPILE` (opcode 1). -/
theorem c2_read_found (cfg : Cfg) (fuel pc : Nat) (st : RState)
    (tok : List Char) (si2 w : Nat)
    (hpc : pc < cfg.cs) (hop : st.m pc % 128 = 6) (h1 : 1 < cfg.cs)
    (hgw : getWordF st.sin st.sidx = some (tok, si2))
    (hfind : findF fuel (readSt2 st tok si2) = some w)
    (hw : 1 < w) (hwc : w + 2 < CELL)
    (hck : (readSt2 st tok si2).m 8 = 0 → w + 1 < cfg.cs) :
    stepJumpPC (step cfg fuel pc st) =
      some (w + 1 + (if (readSt2 st tok si2).m 8 = 0 ∧
          (readSt2 st tok si2).m (w + 1) % 128 = 1 then 1 else 0)) := by
  have hm1 : (w + 1) % CELL = w + 1 := Nat.mod_eq_of_lt (by omega)
  have hm2 : (w + 1 + 1) % CELL = w + 1 + 1 := Nat.mod_eq_of_lt (by omega)
  rw [step_eq cfg fuel pc st hpc, hop,
    (show primList.getD 6 primBad = primRead from rfl)]
  unfold primRead
  rw [if_pos (show check_bounds cfg.cs 1 = true from decide_eq_true h1), hgw]
  show stepJumpPC (readGo cfg fuel (readSt2 st tok si2)) = _
  unfold readGo
  rw [hfind]
  show stepJumpPC (readWord cfg (readSt2 st tok si2) w) = _
  unfold readWord
  rw [if_pos hw]
  by_cases h8 : (readSt2 st tok si2).m 8 = 0
  · rw [if_pos h8, hm1,
      if_pos (show check_bounds cfg.cs (w + 1) = true from
        decide_eq_true (hck h8))]
    by_cases hco : (readSt2 st tok si2).m (w + 1) % 128 = 1
    · rw [if_pos hco, hm2, if_pos ⟨h8, hco⟩]
      rfl
    · rw [if_neg hco, if_neg (fun hand => hco hand.2)]
      rfl
  · rw [if_neg h8, hm1, if_neg (fun hand => h8 hand.1)]
    rfl

/-- C2, witness: on `c2St` (token `ab` defined at link 70 with code
cell `COMPILE`, `STATE = 0`), `READ` jumps to `pc = 72 = 70 + 1 + 1`. -/
theorem c2_witness : stepJumpPC (step cexCfg 5 5 c2St) = some 72 := by
  have h := c2_read_found cexCfg 5 5 c2St ['a', 'b'] 2 70 (by decide)
    (by decide) (by decide) (by decide) (by decide) (by decide) (by decide)
    (fun _ => by decide)
  rw [h]
  decide

/-! ### C3 -/

theorem setMem_m (st : RState) (i v j : Nat) (h : j ≠ i) :
    (setMem st i v).m j = st.m j := upd_at_ne st.m i (v % CELL) j h

theorem setMem_m0 (st : RState) (v : Nat) :
    (setMem st 0 v).m 0 = v % CELL := rfl

theorem pushf_m0 (st : RState) : (pushf st).m 0 = st.m 0 :=
  upd_at_ne st.m (st.S + 1) (st.f % CELL) 0 (by omega)

theorem le_update_ne (m : Nat → Nat) (i v : Nat) (h : i ≠ 0) :
    m 0 ≤ Function.update m i v 0 :=
  le_of_eq (upd_at_ne m i v 0 (Ne.symm h)).symm

theorem next_inj {a b : RState} (h : stepSt? (.next a) = some b) : a = b :=
  Option.some_injective _ h

theorem jump_inj {p : Nat} {a b : RState} (h : stepSt? (.jump p a) = some b) :
    a = b := Option.some_injective _ h

theorem halt_inj {a b : RState} (h : stepSt? (.halt a) = some b) : a = b :=
  Option.some_injective _ h

theorem getWordF_len (sin : List Char) (sidx : Nat) (tok : List Char)
    (si2 : Nat) (h : getWordF sin sidx = some (tok, si2)) :
    tok.length ≤ 31 := by
  simp only [getWordF, scan31] at h
  split at h
  · simp at h
  · simp only [Option.map_some', Option.some.injEq, Prod.mk.injEq] at h
    obtain ⟨h1, _⟩ := h
    subst h1
    exact List.length_take_le _ _

theorem compileF_m0 (st : RState) (code : Nat) (tok : List Char)
    (h1 : 1 ≤ st.m 0) (hl : tok.length ≤ 31) (hc : st.m 0 + 19 < CELL) :
    (compileF st code tok).m 0 = st.m 0 + (tok.length + 2) / 2 + 2 := by
  have hC : CELL = 65536 := rfl
  simp only [compileF]
  rw [writeBytesCells_at_zero (strBytes tok) st.m (2 * st.m 0) (by omega)]
  rw [setMem_m0]
  rw [Nat.mod_eq_of_lt (show st.m 0 + (tok.length + 2) / 2 < CELL by omega)]
  rw [setMem_m _ _ _ _ (show (0 : Nat) ≠ st.m 0 + (tok.length + 2) / 2 by omega)]
  rw [setMem_m0]
  rw [Nat.mod_eq_of_lt (show st.m 0 + (tok.length + 2) / 2 + 1 < CELL by omega)]
  rw [setMem_m _ _ _ _ (show (0 : Nat) ≠ (10 : Nat) by omega)]
  rw [setMem_m _ _ _ _ (show (0 : Nat) ≠ st.m 0 + (tok.length + 2) / 2 by omega)]
  rw [setMem_m0]
  rw [Nat.mod_eq_of_lt (show st.m 0 + (tok.length + 2) / 2 + 1 < CELL by omega)]
  rw [setMem_m _ _ _ _
    (show (0 : Nat) ≠ st.m 0 + (tok.length + 2) / 2 + 1 by omega)]
  rw [setMem_m0]
  rw [Nat.mod_eq_of_lt (show st.m 0 + (tok.length + 2) / 2 + 1 + 1 < CELL by omega)]

/-- C3, counterexample: one dispatch of `IMMEDIATE` on `c3St`
(dictionary pointer 100, well inside the 128-cell core) completes
normally and leaves the dictionary pointer at 99: `*m -= 2` followed by
`m[DIC]++` is a net decrement. -/
theorem c3_cex :
    c3St.m 0 = 100 ∧
    (stepSt? (step cexCfg 1 5 c3St)).map (fun s => s.m 0) = some 99 :=
  ⟨rfl, by decide⟩

/-- C3: the dictionary pointer `image[0]` is not monotonically
non-decreasing: `IMMEDIATE` (opcode 4) decreases it by exactly one
(`*m -= 2; ...; m[DIC]++`) from any state with `3 ≤ m[DIC] < 2^16`,
while every other primitive that completes leaves it non-decreasing
provided its data-directed image writes do not alias cell 0 and the
dictionary-pointer arithmetic does not wrap the 16-bit cell (the
`dicHyp` side conditions). -/
theorem c3_amended (cfg : Cfg) (fuel pc : Nat) (st st2 : RState)
    (h2 : stepSt? (step cfg fuel pc st) = some st2) :
    (st.m pc % 128 ≠ 4 → dicHyp (st.m pc % 128) st → st.m 0 ≤ st2.m 0) ∧
    (st.m pc % 128 = 4 → 3 ≤ st.m 0 → st.m 0 < CELL →
      st2.m 0 + 1 = st.m 0) := by
  rcases Nat.lt_or_ge pc cfg.cs with hpc | hpc
  · rw [step_eq cfg fuel pc st hpc] at h2
    set op := st.m pc % 128 with hop
    clear hop
    clear_value op
    rcases Nat.lt_or_ge op 40 with h40 | h40
    · interval_cases op
      · -- PUSH
        refine ⟨fun _ _ => ?_, fun h4 => absurd h4 (by decide)⟩
        rw [show primList.getD 0 primBad = primPush from rfl] at h2
        simp only [primPush] at h2
        split at h2
        · obtain rfl := next_inj h2
          exact le_update_ne st.m (st.S + 1) (st.f % CELL) (by omega)
        · exact Option.noConfusion h2
      · -- COMPILE
        refine ⟨fun _ hd => ?_, fun h4 => absurd h4 (by decide)⟩
        simp [dicHyp] at hd
        rw [show primList.getD 1 primBad = primCompile from rfl] at h2
        simp only [primCompile] at h2
        split at h2
        · obtain rfl := next_inj h2
          by_cases h0 : st.m 0 = 0
          · exact le_trans (le_of_eq h0) (Nat.zero_le _)
          · have e1 : (setMem (setMem st 0 (st.m 0 + 1)) (st.m 0)
                ((pc + 1) % CELL)).m 0 = (st.m 0 + 1) % CELL := by
              rw [setMem_m _ _ _ _ (Ne.symm h0), setMem_m0]
            exact le_trans (Nat.le_succ _)
              (le_of_eq ((Nat.mod_eq_of_lt hd).symm.trans e1.symm))
        · exact Option.noConfusion h2
      · -- RUN
        refine ⟨fun _ hd => ?_, fun h4 => absurd h4 (by decide)⟩
        simp [dicHyp] at hd
        rw [show primList.getD 2 primBad = primRun from rfl] at h2
        simp only [primRun] at h2
        split at h2
        · obtain rfl := next_inj h2
          exact le_of_eq ((setMem_m (setMem st 1 ((st.m 1 + 1) % CELL))
            ((st.m 1 + 1) % CELL) st.I 0 (Ne.symm hd)).trans
            (setMem_m st 1 ((st.m 1 + 1) % CELL) 0 (by omega))).symm
        · exact Option.noConfusion h2
      · -- DEFINE
        refine ⟨fun _ hd => ?_, fun h4 => absurd h4 (by decide)⟩
        simp [dicHyp] at hd
        rw [show primList.getD 3 primBad = primDefine from rfl] at h2
        simp only [primDefine] at h2
        split at h2
        · obtain rfl := halt_inj h2
          exact le_of_eq (setMem_m st 8 1 0 (by omega)).symm
        · rename_i tok si2 hgw
          split at h2
          · obtain rfl := next_inj h2
            obtain ⟨hd1, hd2⟩ := hd
            have hC : CELL = 65536 := rfl
            have hl := getWordF_len _ _ _ _ hgw
            have hm0 : ({ setMem st 8 1 with
                m := writeBytesCells (setMem st 8 1).m (2 * STRING_OFFSET)
                  (strBytes tok),
                sidx := si2, sbuf := tok } : RState).m 0 = st.m 0 := by
              show writeBytesCells (setMem st 8 1).m (2 * STRING_OFFSET)
                (strBytes tok) 0 = st.m 0
              rw [writeBytesCells_at_zero _ _ _ (by decide)]
              exact setMem_m st 8 1 0 (by omega)
            have hcf := compileF_m0
              { setMem st 8 1 with
                m := writeBytesCells (setMem st 8 1).m (2 * STRING_OFFSET)
                  (strBytes tok),
                sidx := si2, sbuf := tok } 1 tok
              (le_of_le_of_eq hd1 hm0.symm) hl (by rw [hm0]; exact hd2)
            rw [hm0] at hcf
            rw [hcf, setMem_m _ _ _ _
                (show (0 : Nat) ≠ st.m 0 + (tok.length + 2) / 2 + 2 by omega),
              setMem_m0, Nat.mod_eq_of_lt
                (show st.m 0 + (tok.length + 2) / 2 + 2 + 1 < CELL by omega)]
            omega
          · exact Option.noConfusion h2
      · -- IMMEDIATE
        refine ⟨fun hne _ => absurd rfl hne, fun _ h3 hlt => ?_⟩
        rw [show primList.getD 4 primBad = primImmediate from rfl] at h2
        simp only [primImmediate] at h2
        obtain rfl := next_inj h2
        have e1 : (setMem st 0 (st.m 0 + CELL - 2)).m 0 = st.m 0 - 2 := by
          rw [setMem_m0]
          simp only [CELL] at hlt ⊢
          omega
        rw [e1, setMem_m _ _ _ _ (show (0 : Nat) ≠ st.m 0 - 2 by omega), e1,
          setMem_m0]
        simp only [CELL] at hlt ⊢
        omega
      · -- COMMENT
        refine ⟨fun _ _ => ?_, fun h4 => absurd h4 (by decide)⟩
        rw [show primList.getD 5 primBad = primComment from rfl] at h2
        simp only [primComment] at h2
        split at h2
        · obtain rfl := halt_inj h2
          exact Nat.le_refl _
        · obtain rfl := next_inj h2
          exact Nat.le_refl _
      · -- READ
        refine ⟨fun _ hd => ?_, fun h4 => absurd h4 (by decide)⟩
        simp [dicHyp] at hd
        rw [show primList.getD 6 primBad = primRead from rfl] at h2
        simp only [primRead] at h2
        split at h2
        · split at h2
          · obtain rfl := halt_inj h2
            exact le_of_eq (setMem_m st 1 (st.m 1 + CELL - 1) 0 (by omega)).symm
          · rename_i tok si2 hgw
            simp only [readGo] at h2
            split at h2
            · exact Option.noConfusion h2
            · rename_i w hfind
              simp only [readWord] at h2
              split at h2
              · split at h2
                · split at h2
                  · split at h2
                    · obtain rfl := jump_inj h2
                      exact le_of_eq (readSt2_m_ne st tok si2 0 (by omega) (Or.inl (by decide))).symm
                    · obtain rfl := jump_inj h2
                      exact le_of_eq (readSt2_m_ne st tok si2 0 (by omega) (Or.inl (by decide))).symm
                  · exact Option.noConfusion h2
                · obtain rfl := jump_inj h2
                  exact le_of_eq (readSt2_m_ne st tok si2 0 (by omega) (Or.inl (by decide))).symm
              · simp only [readNumber] at h2
                split at h2
                · obtain rfl := next_inj h2
                  exact le_of_eq (readSt2_m_ne st tok si2 0 (by omega) (Or.inl (by decide))).symm
                · split at h2
                  · split at h2
                    · obtain rfl := next_inj h2
                      by_cases h0 : st.m 0 = 0
                      · exact le_trans (le_of_eq h0) (Nat.zero_le _)
                      · rw [readSt2_m_ne st tok si2 0 (by omega) (Or.inl (by decide)),
                          setMem_m _ _ _ _ (Ne.symm h0), setMem_m0,
                          Nat.mod_eq_of_lt (show st.m 0 + 1 < CELL by omega),
                          setMem_m _ _ _ _
                            (show (0 : Nat) ≠ st.m 0 + 1 by omega),
                          setMem_m0,
                          Nat.mod_eq_of_lt
                            (show st.m 0 + 1 + 1 < CELL by omega)]
                        omega
                    · exact Option.noConfusion h2
                  · obtain rfl := next_inj h2
                    exact le_of_eq ((upd_at_ne (readSt2 st tok si2).m
                      ((readSt2 st tok si2).S + 1)
                      ((readSt2 st tok si2).f % CELL) 0 (by omega)).trans
                      (readSt2_m_ne st tok si2 0 (by omega) (Or.inl (by decide)))).symm
        · exact Option.noConfusion h2
      · -- LOAD
        refine ⟨fun _ _ => ?_, fun h4 => absurd h4 (by decide)⟩
        rw [show primList.getD 7 primBad = primLoad from rfl] at h2
        simp only [primLoad] at h2
        split at h2
        · obtain rfl := next_inj h2
          exact Nat.le_refl _
        · exact Option.noConfusion h2
      · -- STORE
        refine ⟨fun _ hd => ?_, fun h4 => absurd h4 (by decide)⟩
        simp [dicHyp] at hd
        rw [show primList.getD 8 primBad = primStore from rfl] at h2
        simp only [primStore] at h2
        split at h2
        · obtain rfl := next_inj h2
          exact le_of_eq (setMem_m st st.f (st.m st.S) 0 (Ne.symm hd)).symm
        · exact Option.noConfusion h2
      · -- SUB
        refine ⟨fun _ _ => ?_, fun h4 => absurd h4 (by decide)⟩
        obtain rfl := next_inj h2
        exact Nat.le_refl _
      · -- ADD
        refine ⟨fun _ _ => ?_, fun h4 => absurd h4 (by decide)⟩
        obtain rfl := next_inj h2
        exact Nat.le_refl _
      · -- AND
        refine ⟨fun _ _ => ?_, fun h4 => absurd h4 (by decide)⟩
        obtain rfl := next_inj h2
        exact Nat.le_refl _
      · -- OR
        refine ⟨fun _ _ => ?_, fun h4 => absurd h4 (by decide)⟩
        obtain rfl := next_inj h2
        exact Nat.le_refl _
      · -- XOR
        refine ⟨fun _ _ => ?_, fun h4 => absurd h4 (by decide)⟩
        obtain rfl := next_inj h2
        exact Nat.le_refl _
      · -- INV
        refine ⟨fun _ _ => ?_, fun h4 => absurd h4 (by decide)⟩
        obtain rfl := next_inj h2
        exact Nat.le_refl _
      · -- SHL
        refine ⟨fun _ _ => ?_, fun h4 => absurd h4 (by decide)⟩
        obtain rfl := next_inj h2
        exact Nat.le_refl _
      · -- SHR
        refine ⟨fun _ _ => ?_, fun h4 => absurd h4 (by decide)⟩
        obtain rfl := next_inj h2
        exact Nat.le_refl _
      · -- MUL
        refine ⟨fun _ _ => ?_, fun h4 => absurd h4 (by decide)⟩
        obtain rfl := next_inj h2
        exact Nat.le_refl _
      · -- LESS
        refine ⟨fun _ _ => ?_, fun h4 => absurd h4 (by decide)⟩
        obtain rfl := next_inj h2
        exact Nat.le_refl _
      · -- EXIT
        refine ⟨fun _ _ => ?_, fun h4 => absurd h4 (by decide)⟩
        rw [show primList.getD 19 primBad = primExit from rfl] at h2
        simp only [primExit] at h2
        split at h2
        · obtain rfl := next_inj h2
          exact le_of_eq (setMem_m st 1 (st.m 1 + CELL - 1) 0 (by omega)).symm
        · exact Option.noConfusion h2
      · -- EMIT
        refine ⟨fun _ _ => ?_, fun h4 => absurd h4 (by decide)⟩
        obtain rfl := next_inj h2
        exact Nat.le_refl _
      · -- KEY
        refine ⟨fun _ _ => ?_, fun h4 => absurd h4 (by decide)⟩
        rw [show primList.getD 21 primBad = primKey from rfl] at h2
        simp only [primKey] at h2
        split at h2
        · obtain rfl := next_inj h2
          exact le_update_ne st.m (st.S + 1) (st.f % CELL) (by omega)
        · obtain rfl := next_inj h2
          exact le_update_ne st.m (st.S + 1) (st.f % CELL) (by omega)
      · -- FROMR
        refine ⟨fun _ _ => ?_, fun h4 => absurd h4 (by decide)⟩
        rw [show primList.getD 22 primBad = primFromr from rfl] at h2
        simp only [primFromr] at h2
        split at h2
        · obtain rfl := next_inj h2
          exact le_of_eq ((setMem_m (pushf st) 1
            ((pushf st).m 1 + CELL - 1) 0 (by omega)).trans
            (pushf_m0 st)).symm
        · exact Option.noConfusion h2
      · -- TOR
        refine ⟨fun _ hd => ?_, fun h4 => absurd h4 (by decide)⟩
        simp [dicHyp] at hd
        rw [show primList.getD 23 primBad = primTor from rfl] at h2
        simp only [primTor] at h2
        split at h2
        · obtain rfl := next_inj h2
          exact le_of_eq ((setMem_m (setMem st 1 ((st.m 1 + 1) % CELL))
            ((st.m 1 + 1) % CELL) st.f 0 (Ne.symm hd)).trans
            (setMem_m st 1 ((st.m 1 + 1) % CELL) 0 (by omega))).symm
        · exact Option.noConfusion h2
      · -- JMP
        refine ⟨fun _ _ => ?_, fun h4 => absurd h4 (by decide)⟩
        rw [show primList.getD 24 primBad = primJmp from rfl] at h2
        simp only [primJmp] at h2
        split at h2
        · obtain rfl := next_inj h2
          exact Nat.le_refl _
        · exact Option.noConfusion h2
      · -- JMPZ
        refine ⟨fun _ _ => ?_, fun h4 => absurd h4 (by decide)⟩
        obtain rfl := next_inj h2
        exact Nat.le_refl _
      · -- PNUM
        refine ⟨fun _ _ => ?_, fun h4 => absurd h4 (by decide)⟩
        obtain rfl := next_inj h2
        exact Nat.le_refl _
      · -- QUOTE
        refine ⟨fun _ _ => ?_, fun h4 => absurd h4 (by decide)⟩
        rw [show primList.getD 27 primBad = primQuote from rfl] at h2
        simp only [primQuote, primPush] at h2
        split at h2
        · obtain rfl := next_inj h2
          exact le_update_ne st.m (st.S + 1) (st.f % CELL) (by omega)
        · exact Option.noConfusion h2
      · -- COMMA
        refine ⟨fun _ hd => ?_, fun h4 => absurd h4 (by decide)⟩
        simp [dicHyp] at hd
        rw [show primList.getD 28 primBad = primComma from rfl] at h2
        simp only [primComma] at h2
        split at h2
        · obtain rfl := next_inj h2
          by_cases h0 : st.m 0 = 0
          · exact le_trans (le_of_eq h0) (Nat.zero_le _)
          · have e1 : (setMem (setMem st 0 (st.m 0 + 1)) (st.m 0) st.f).m 0
                = (st.m 0 + 1) % CELL := by
              rw [setMem_m _ _ _ _ (Ne.symm h0), setMem_m0]
            exact le_trans (Nat.le_succ _)
              (le_of_eq ((Nat.mod_eq_of_lt hd).symm.trans e1.symm))
        · exact Option.noConfusion h2
      · -- EQUAL
        refine ⟨fun _ _ => ?_, fun h4 => absurd h4 (by decide)⟩
        obtain rfl := next_inj h2
        exact Nat.le_refl _
      · -- SWAP
        refine ⟨fun _ hd => ?_, fun h4 => absurd h4 (by decide)⟩
        simp [dicHyp] at hd
        obtain rfl := next_inj h2
        exact le_update_ne st.m st.S (st.f % CELL) hd
      · -- DUP
        refine ⟨fun _ _ => ?_, fun h4 => absurd h4 (by decide)⟩
        obtain rfl := next_inj h2
        exact le_update_ne st.m (st.S + 1) (st.f % CELL) (by omega)
      · -- DROP
        refine ⟨fun _ _ => ?_, fun h4 => absurd h4 (by decide)⟩
        obtain rfl := next_inj h2
        exact Nat.le_refl _
      · -- OVER
        refine ⟨fun _ _ => ?_, fun h4 => absurd h4 (by decide)⟩
        obtain rfl := next_inj h2
        exact le_update_ne st.m (st.S + 1) (st.f % CELL) (by omega)
      · -- TAIL
        refine ⟨fun _ _ => ?_, fun h4 => absurd h4 (by decide)⟩
        obtain rfl := next_inj h2
        exact le_of_eq (setMem_m st 1 (st.m 1 + CELL - 1) 0 (by omega)).symm
      · -- BSAVE
        refine ⟨fun _ _ => ?_, fun h4 => absurd h4 (by decide)⟩
        obtain rfl := next_inj h2
        exact le_of_eq
          (congrFun (blockio_write_m cfg st.m (st.m st.S) st.f) 0).symm
      · -- BLOAD
        refine ⟨fun _ hd => ?_, fun h4 => absurd h4 (by decide)⟩
        simp [dicHyp] at hd
        obtain rfl := next_inj h2
        exact le_of_eq (blockio_read_zero cfg st.m (st.m st.S) st.f hd).symm
      · -- FIND
        refine ⟨fun _ _ => ?_, fun h4 => absurd h4 (by decide)⟩
        rw [show primList.getD 37 primBad = primFind from rfl] at h2
        simp only [primFind] at h2
        split at h2
        · obtain rfl := halt_inj h2
          exact le_update_ne st.m (st.S + 1) (st.f % CELL) (by omega)
        · rename_i tok si2 hgw
          split at h2
          · exact Option.noConfusion h2
          · obtain rfl := next_inj h2
            exact le_of_eq ((writeBytesCells_at_zero (strBytes tok)
              (pushf st).m (2 * STRING_OFFSET) (by decide)).trans
              (pushf_m0 st)).symm
      · -- PRINT
        refine ⟨fun _ _ => ?_, fun h4 => absurd h4 (by decide)⟩
        obtain rfl := next_inj h2
        exact Nat.le_refl _
      · -- PSTK
        refine ⟨fun _ _ => ?_, fun h4 => absurd h4 (by decide)⟩
        obtain rfl := next_inj h2
        exact Nat.le_refl _
    · rw [List.getD_eq_default _ _
        (le_trans (Nat.le_of_eq (show primList.length = 40 from rfl)) h40)] at h2
      exact Option.noConfusion h2
  · unfold step at h2
    rw [if_neg (by simp [check_bounds]; omega)] at h2
    exact Option.noConfusion h2

/-- C3, witness: the amended theorem applied to `c3St` (an `IMMEDIATE`
dispatch with dictionary pointer 100): the completed step has
dictionary pointer 99, one below its previous value. -/
theorem c3_witness :
    (stepSt? (step cexCfg 1 5 c3St)).map (fun s => s.m 0 + 1) =
      some (c3St.m 0) := by
  rcases hs : stepSt? (step cexCfg 1 5 c3St) with _ | s2
  · have h9 : (stepSt? (step cexCfg 1 5 c3St)).map (fun s => s.m 0) =
        some 99 := by decide
    rw [hs] at h9
    exact Option.noConfusion h9
  · have h := (c3_amended cexCfg 1 5 c3St s2 hs).2 (by decide) (by decide)
      (by decide)
    rw [Option.map_some', h]

/-! ### C9 -/

theorem digitD_val (d : Nat) (hd : d < 10) : charVal (digitCharD d) = d := by
  interval_cases d <;> decide

theorem digitD_dec (d : Nat) (hd : d < 10) : isDecCh (digitCharD d) = true := by
  interval_cases d <;> decide

theorem digitD_ws (d : Nat) (hd : d < 10) : isWs (digitCharD d) = false := by
  interval_cases d <;> decide

theorem digitD_ne_minus (d : Nat) (hd : d < 10) : digitCharD d ≠ '-' := by
  interval_cases d <;> decide

theorem digitD_ne_plus (d : Nat) (hd : d < 10) : digitCharD d ≠ '+' := by
  interval_cases d <;> decide

theorem digitD_ne_nul (d : Nat) (hd : d < 10) : digitCharD d ≠ nulChar := by
  interval_cases d <;> decide

theorem digitD_ne_zero (d : Nat) (hd : d < 10) (h0 : d ≠ 0) :
    digitCharD d ≠ '0' := by
  interval_cases d <;> first | exact absurd rfl h0 | decide

theorem digitH_val (d : Nat) (hd : d < 16) : charVal (digitCharH d) = d := by
  interval_cases d <;> decide

theorem digitH_hex (d : Nat) (hd : d < 16) : isHexCh (digitCharH d) = true := by
  interval_cases d <;> decide

theorem digitH_ne_nul (d : Nat) (hd : d < 16) : digitCharH d ≠ nulChar := by
  interval_cases d <;> decide

theorem parse_rev_digits (base : Nat) (toCh : Nat → Char) (isD : Char → Bool)
    (hval : ∀ d, d < base → charVal (toCh d) = d ∧ isD (toCh d) = true)
    (ds : List Nat) (hd : ∀ d ∈ ds, d < base) :
    parseDigits base isD (ds.reverse.map toCh) = Nat.ofDigits base ds := by
  have hfold : ∀ (l : List Nat), (∀ d ∈ l, d < base) → ∀ acc : Nat,
      (l.reverse.map toCh).foldl (fun a c => a * base + charVal c) acc =
        acc * base ^ l.length + Nat.ofDigits base l := by
    intro l
    induction l with
    | nil => intro _ acc; simp [Nat.ofDigits]
    | cons d T ih =>
      intro hl acc
      rw [List.reverse_cons, List.map_append, List.foldl_append,
        ih (fun x hx => hl x (List.mem_cons_of_mem d hx)) acc]
      simp only [List.map_cons, List.map_nil, List.foldl_cons, List.foldl_nil]
      rw [(hval d (hl d (List.mem_cons_self d T))).1, Nat.ofDigits_cons,
        List.length_cons, pow_succ]
      ring
  have hall : ∀ c ∈ ds.reverse.map toCh, isD c = true := by
    intro c hc
    obtain ⟨d, hdm, rfl⟩ := List.mem_map.mp hc
    exact (hval d (hd d (List.mem_reverse.mp hdm))).2
  unfold parseDigits
  rw [List.takeWhile_eq_self_iff.mpr hall, hfold ds hd 0]
  simp

theorem decLit_shape (n : Nat) (hn : n ≠ 0) :
    ∃ d₀ dtl, (Nat.digits 10 n).reverse = d₀ :: dtl ∧ d₀ < 10 ∧ d₀ ≠ 0 ∧
      (∀ d ∈ d₀ :: dtl, d < 10) ∧
      decLit n = (d₀ :: dtl).map digitCharD := by
  have hne : Nat.digits 10 n ≠ [] := Nat.digits_ne_nil_iff_ne_zero.mpr hn
  rcases hr : (Nat.digits 10 n).reverse with _ | ⟨d₀, dtl⟩
  · exact absurd (List.reverse_eq_nil_iff.mp hr) hne
  · refine ⟨d₀, dtl, rfl, ?_, ?_, ?_, ?_⟩
    · have hm : d₀ ∈ Nat.digits 10 n := by
        apply List.mem_reverse.mp
        rw [hr]
        exact List.mem_cons_self d₀ dtl
      exact Nat.digits_lt_base (by norm_num) hm
    · have h1 : (Nat.digits 10 n).getLast? = some d₀ := by
        rw [← List.head?_reverse, hr]
        rfl
      rw [List.getLast?_eq_getLast _ hne, Option.some_inj] at h1
      exact h1 ▸ Nat.getLast_digit_ne_zero 10 hn
    · intro d hdm
      have hm : d ∈ Nat.digits 10 n := by
        apply List.mem_reverse.mp
        rw [hr]
        exact hdm
      exact Nat.digits_lt_base (by norm_num) hm
    · unfold decLit
      rw [if_neg hn, hr]

theorem hexLit_shape (n : Nat) (hn : n ≠ 0) :
    ∃ d₀ dtl, (Nat.digits 16 n).reverse = d₀ :: dtl ∧
      (∀ d ∈ d₀ :: dtl, d < 16) ∧
      hexLit n = '0' :: 'x' :: (d₀ :: dtl).map digitCharH := by
  have hne : Nat.digits 16 n ≠ [] := Nat.digits_ne_nil_iff_ne_zero.mpr hn
  rcases hr : (Nat.digits 16 n).reverse with _ | ⟨d₀, dtl⟩
  · exact absurd (List.reverse_eq_nil_iff.mp hr) hne
  · refine ⟨d₀, dtl, rfl, ?_, ?_⟩
    · intro d hdm
      have hm : d ∈ Nat.digits 16 n := by
        apply List.mem_reverse.mp
        rw [hr]
        exact hdm
      exact Nat.digits_lt_base (by norm_num) hm
    · unfold hexLit
      rw [if_neg hn, hr]

theorem is_number_decLit (n : Nat) : is_number (decLit n) = true := by
  by_cases h0 : n = 0
  · subst h0
    decide
  · obtain ⟨d₀, dtl, hrev, hd₀, hd0ne, hall, hL⟩ := decLit_shape n h0
    have hnn : nulChar ∉ decLit n := by
      rw [hL]
      intro hm
      obtain ⟨d, hdm, hdc⟩ := List.mem_map.mp hm
      exact digitD_ne_nul d (hall d hdm) hdc
    rw [is_number_eq_grammar _ hnn, numberGrammar_strip, hL, List.map_cons,
      charAt_cons_zero, if_neg (digitD_ne_minus d₀ hd₀)]
    unfold grammarBody
    split
    · rename_i heq
      rw [List.cons.injEq] at heq
      exact absurd heq.1 (digitD_ne_zero d₀ hd₀ hd0ne)
    · rename_i heq
      rw [List.cons.injEq] at heq
      exact absurd heq.1 (digitD_ne_zero d₀ hd₀ hd0ne)
    · rw [show (digitCharD d₀ :: dtl.map digitCharD).isEmpty = false from rfl]
      rw [show (!false) = true from rfl, Bool.true_and, ← List.map_cons]
      refine List.all_eq_true.mpr ?_
      intro c hc
      obtain ⟨d, hdm, hdc⟩ := List.mem_map.mp hc
      rw [← hdc]
      exact digitD_dec d (hall d hdm)

theorem is_number_hexLit (n : Nat) : is_number (hexLit n) = true := by
  by_cases h0 : n = 0
  · subst h0
    decide
  · obtain ⟨d₀, dtl, hrev, hall, hL⟩ := hexLit_shape n h0
    have hnn : nulChar ∉ hexLit n := by
      rw [hL]
      intro hm
      rcases List.mem_cons.mp hm with h | hm2
      · exact absurd h (by decide)
      rcases List.mem_cons.mp hm2 with h | hm3
      · exact absurd h (by decide)
      obtain ⟨d, hdm, hdc⟩ := List.mem_map.mp hm3
      exact digitH_ne_nul d (hall d hdm) hdc
    rw [is_number_eq_grammar _ hnn, numberGrammar_strip, hL, List.map_cons,
      charAt_cons_zero, if_neg (by decide : ¬('0' : Char) = '-')]
    show (!(digitCharH d₀ :: dtl.map digitCharH).isEmpty &&
      (digitCharH d₀ :: dtl.map digitCharH).all
        (fun c => hexDigits.contains c)) = true
    rw [show (digitCharH d₀ :: dtl.map digitCharH).isEmpty = false from rfl]
    rw [show (!false) = true from rfl, Bool.true_and, ← List.map_cons]
    refine List.all_eq_true.mpr ?_
    intro c hc
    obtain ⟨d, hdm, hdc⟩ := List.mem_map.mp hc
    rw [← hdc]
    exact digitH_hex d (hall d hdm)

theorem castCell_of_lt (n : Nat) (hn : n < CELL) : castCell ((n : Int)) = n := by
  unfold castCell
  rw [Int.emod_eq_of_lt (by positivity) (by exact_mod_cast hn),
    Int.toNat_natCast]

theorem strtol0_decLit (n : Nat) (hn : n < CELL) :
    castCell (strtol0 (decLit n)) = n := by
  by_cases h0 : n = 0
  · subst h0
    decide
  · obtain ⟨d₀, dtl, hrev, hd₀, hd0ne, hall, hL⟩ := decLit_shape n h0
    rw [hL, List.map_cons]
    simp only [strtol0]
    rw [show List.dropWhile isWs (digitCharD d₀ :: dtl.map digitCharD) =
        digitCharD d₀ :: dtl.map digitCharD from by
      rw [List.dropWhile_cons, if_neg (by rw [digitD_ws d₀ hd₀]; simp)]]
    rw [charAt_cons_zero,
      if_neg (show ¬(digitCharD d₀ = '-' ∨ digitCharD d₀ = '+') from by
        rintro (h | h)
        · exact digitD_ne_minus d₀ hd₀ h
        · exact digitD_ne_plus d₀ hd₀ h)]
    rw [charAt_cons_zero,
      if_neg (show ¬(digitCharD d₀ = '0' ∧ _) from
        fun hand => digitD_ne_zero d₀ hd₀ hd0ne hand.1),
      if_neg (digitD_ne_zero d₀ hd₀ hd0ne)]
    rw [← List.map_cons, ← hrev,
      parse_rev_digits 10 digitCharD isDecCh
        (fun d hd => ⟨digitD_val d hd, digitD_dec d hd⟩) _
        (fun d hd => Nat.digits_lt_base (by norm_num) hd),
      Nat.ofDigits_digits]
    rw [if_neg (digitD_ne_minus d₀ hd₀)]
    rw [if_neg (show ¬((n : Int) > LONG_MAX) from by
        unfold LONG_MAX
        unfold CELL at hn
        omega),
      if_neg (show ¬((n : Int) < LONG_MIN) from by unfold LONG_MIN; omega)]
    exact castCell_of_lt n hn

theorem strtol0_hexLit (n : Nat) (hn : n < CELL) :
    castCell (strtol0 (hexLit n)) = n := by
  by_cases h0 : n = 0
  · subst h0
    decide
  · obtain ⟨d₀, dtl, hrev, hall, hL⟩ := hexLit_shape n h0
    rw [hL, List.map_cons]
    simp only [strtol0]
    rw [show List.dropWhile isWs
        ('0' :: 'x' :: digitCharH d₀ :: dtl.map digitCharH) =
        '0' :: 'x' :: digitCharH d₀ :: dtl.map digitCharH from by
      rw [List.dropWhile_cons, if_neg (by decide)]]
    rw [charAt_cons_zero,
      if_neg (show ¬(('0' : Char) = '-' ∨ ('0' : Char) = '+') from by decide)]
    rw [if_pos (show charAt ('0' :: 'x' :: digitCharH d₀ ::
        dtl.map digitCharH) 0 = '0' ∧
        (charAt ('0' :: 'x' :: digitCharH d₀ :: dtl.map digitCharH) 1 = 'x' ∨
          charAt ('0' :: 'x' :: digitCharH d₀ :: dtl.map digitCharH) 1 = 'X')
        from ⟨rfl, Or.inl rfl⟩)]
    rw [if_pos (show isHexCh (charAt ('0' :: 'x' :: digitCharH d₀ ::
        dtl.map digitCharH) 2) = true from digitH_hex d₀
        (hall d₀ (List.mem_cons_self _ _)))]
    rw [show List.drop 2 ('0' :: 'x' :: digitCharH d₀ :: dtl.map digitCharH) =
        digitCharH d₀ :: dtl.map digitCharH from rfl]
    rw [← List.map_cons, ← hrev,
      parse_rev_digits 16 digitCharH isHexCh
        (fun d hd => ⟨digitH_val d hd, digitH_hex d hd⟩) _
        (fun d hd => Nat.digits_lt_base (by norm_num) hd),
      Nat.ofDigits_digits]
    rw [if_neg (show ¬(('0' : Char) = '-') from by decide)]
    rw [if_neg (show ¬((n : Int) > LONG_MAX) from by
        unfold LONG_MAX
        unfold CELL at hn
        omega),
      if_neg (show ¬((n : Int) < LONG_MIN) from by unfold LONG_MIN; omega)]
    exact castCell_of_lt n hn

/-- C9: dispatching `READ` in interpret mode (`STATE = 0`) on a token
that is the decimal or hexadecimal literal of a cell value `n` and is
not in the dictionary (`find` at or below the sentinel) pushes the old
cached top onto the stack and leaves exactly `n` as the new cached top;
apart from the pushed slot, the `RSTK` decrement and the 16-cell word
buffer at `STRING_OFFSET` (cells 32–47, which `forth_get_word`
overwrites with the token) the image — the stack and the dictionary
included — is unchanged. -/
theorem c9_number_interpret (cfg : Cfg) (fuel pc : Nat) (st : RState)
    (n : Nat) (tok : List Char) (si2 w : Nat)
    (hpc : pc < cfg.cs) (hop : st.m pc % 128 = 6) (h1 : 1 < cfg.cs)
    (hgw : getWordF st.sin st.sidx = some (tok, si2))
    (hfind : findF fuel (readSt2 st tok si2) = some w) (hw : w ≤ 1)
    (htok : tok = decLit n ∨ tok = hexLit n) (hn : n < CELL)
    (hstate : st.m 8 = 0) (hf : st.f < CELL) :
    (stepSt? (step cfg fuel pc st)).map (fun s => s.f) = some n ∧
    (stepSt? (step cfg fuel pc st)).map (fun s => s.S) = some (st.S + 1) ∧
    (stepSt? (step cfg fuel pc st)).map (fun s => s.m (st.S + 1)) = some st.f ∧
    (∀ j, j ≠ 1 → j ≠ st.S + 1 →
      j < STRING_OFFSET ∨ STRING_OFFSET + 16 ≤ j →
      (stepSt? (step cfg fuel pc st)).map (fun s => s.m j) = some (st.m j)) := by
  have hnum : is_number tok = true := by
    rcases htok with h | h <;> rw [h]
    · exact is_number_decLit n
    · exact is_number_hexLit n
  have h8 : (readSt2 st tok si2).m 8 = 0 := by
    rw [readSt2_m_ne st tok si2 8 (by omega) (Or.inl (by decide))]
    exact hstate
  have hstep : step cfg fuel pc st =
      .next { readSt2 st tok si2 with
              m := Function.update (readSt2 st tok si2).m
                ((readSt2 st tok si2).S + 1) ((readSt2 st tok si2).f % CELL),
              S := (readSt2 st tok si2).S + 1,
              f := castCell (strtol0 tok) } := by
    rw [step_eq cfg fuel pc st hpc, hop,
      (show primList.getD 6 primBad = primRead from rfl)]
    unfold primRead
    rw [if_pos (show check_bounds cfg.cs 1 = true from decide_eq_true h1), hgw]
    show readGo cfg fuel (readSt2 st tok si2) = _
    unfold readGo
    rw [hfind]
    show readWord cfg (readSt2 st tok si2) w = _
    unfold readWord
    rw [if_neg (by omega : ¬ 1 < w)]
    unfold readNumber
    rw [show (readSt2 st tok si2).sbuf = tok from rfl]
    rw [if_neg (by rw [hnum]; simp)]
    rw [if_neg (not_not_intro h8)]
    rfl
  rw [hstep]
  have hvaln : castCell (strtol0 tok) = n := by
    rcases htok with h | h <;> rw [h]
    · exact strtol0_decLit n hn
    · exact strtol0_hexLit n hn
  refine ⟨?_, ?_, ?_, ?_⟩
  · simp only [stepSt?, Option.map_some']
    rw [hvaln]
  · simp only [stepSt?, Option.map_some']
    rfl
  · simp only [stepSt?, Option.map_some']
    show some (Function.update (readSt2 st tok si2).m (st.S + 1)
      (st.f % CELL) (st.S + 1)) = some st.f
    rw [Function.update_same, Nat.mod_eq_of_lt hf]
  · intro j hj1 hjS hr
    simp only [stepSt?, Option.map_some']
    show some (Function.update (readSt2 st tok si2).m (st.S + 1)
      (st.f % CELL) j) = some (st.m j)
    rw [upd_at_ne _ _ _ _ hjS, readSt2_m_ne st tok si2 j hj1
      (hr.imp (fun h => h)
        (fun h => ⟨getWordF_len st.sin st.sidx tok si2 hgw, h⟩))]

theorem decLit_57 : decLit 57 = ['5', '7'] := by
  have h : Nat.digits 10 57 = [7, 5] := by
    rw [Nat.digits_def' (by norm_num : (1 : Nat) < 10) (by norm_num : 0 < 57)]
    norm_num
  unfold decLit
  rw [if_neg (by norm_num), h]
  rfl

/-- C9, witness: the literal `57` evaluated on `c9St` (interpret mode,
empty dictionary, old top 3) leaves top 57, pushes 3 into cell 91, and
leaves the dictionary pointer cell untouched. -/
theorem c9_witness :
    (stepSt? (step cexCfg 3 100 c9St)).map (fun s => s.f) = some 57 ∧
    (stepSt? (step cexCfg 3 100 c9St)).map (fun s => s.S) = some 91 ∧
    (stepSt? (step cexCfg 3 100 c9St)).map (fun s => s.m 91) = some 3 ∧
    (stepSt? (step cexCfg 3 100 c9St)).map (fun s => s.m 0) = some 0 := by
  have h := c9_number_interpret cexCfg 3 100 c9St 57 ['5', '7'] 2 0
    (by decide) (by decide) (by decide) (by decide) (by decide) (by decide)
    (Or.inl decLit_57.symm) (by decide) (by decide) (by decide)
  exact ⟨h.1, h.2.1, h.2.2.1, h.2.2.2 0 (by decide) (by decide)
    (Or.inl (by decide))⟩

/-! ### C10 -/

/-- C10: a `forth_run` that returns 0 has written back only the cached
top of stack: the stored stack pointer `S` and stored instruction
pointer `I` of the core equal their pre-run values, so
`forth_stack_position` observes the pre-run stack position. -/
theorem c10_writeback (fuel : Nat) (cfg : Cfg) (o o2 : Forth)
    (h : forth_run fuel cfg o = some (0, o2)) :
    o2.S = o.S ∧ o2.I = o.I ∧
      forth_stack_position o2 = forth_stack_position o := by
  unfold forth_run at h
  by_cases hi : o.invalid
  · rw [if_pos hi] at h
    simp only [Option.some.injEq, Prod.mk.injEq] at h
    exact absurd h.1 (by decide)
  · rw [if_neg hi] at h
    rcases hR : runLoop fuel cfg (rstateOf o) with st | st
    · rw [hR] at h
      simp only [Option.some.injEq, Prod.mk.injEq] at h
      obtain ⟨_, h2⟩ := h
      subst h2
      exact ⟨rfl, rfl, rfl⟩
    · rw [hR] at h
      simp only [Option.some.injEq, Prod.mk.injEq] at h
      exact absurd h.1 (by decide)
    · rw [hR] at h
      simp at h

/-- C10, witness: the trivially halting core `haltO` runs to 0 and
comes back unchanged — in particular `S`, `I` and the stack position
are those from before the run. -/
theorem c10_witness :
    forth_run 3 cexCfg haltO = some (0, haltO) ∧
    (haltO.S = haltO.S ∧ haltO.I = haltO.I ∧
      forth_stack_position haltO = forth_stack_position haltO) :=
  ⟨rfl, c10_writeback 3 cexCfg haltO haltO rfl⟩

end LibForth
